import Mathlib

/-!
# Verification of the dragonfly-wasm plugin host core

Shallow embedding of the event dispatcher, event-result parser, key-value
storage backends, instance pool and dependency resolver of the
`dragonfly-wasm` repository, together with proofs deciding the claims of
the natural-language specification.

Conventions of the embedding:
* Go byte slices are `List Nat` (each entry a byte value).
* Go `map[string]string` values are functional maps `String → Option String`;
  Go `nil` maps are distinguished from allocated maps with `Option` where the
  code distinguishes them (`DispatchResult.Modifications`).
* Handlers (`events.Handler`) are pure functions returning
  `Except Unit (Option EventResult)`: the `error` branch models a non-nil
  Go error, `ok none` models `(nil, nil)`, `ok (some r)` a non-nil result.
* Wall-clock durations are threaded as an abstract `Nat` parameter where the
  code records `time.Since`; the zero-subscription path never reads it,
  mirroring `DispatchResult{}`.
-/

namespace DragonflyWasm

/-- Go `[]byte`. -/
abbrev Bytes := List Nat

/-- Go `plugin.EventType` (a string type). -/
abbrev EventType := String

/-- Go `map[string]string`, viewed through lookups (`m[k]`). -/
abbrev Mods := String → Option String

/-- The empty / `nil` `map[string]string`. -/
def emptyMods : Mods := fun _ => none

/-- `events.EventResult` (pkg/events/dispatcher.go): `Cancelled` plus the
`Modifications` table.  The `Error` string field is never read by the
dispatcher and is omitted. -/
structure EventResult where
  cancelled : Bool
  modifications : Mods

/-- `events.Handler`: `func(ctx, data) (*EventResult, error)`.
`Except.error` is a non-nil error, `Except.ok none` is `(nil, nil)`. -/
abbrev Handler := Bytes → Except Unit (Option EventResult)

/-- `events.Subscription` (pkg/events/dispatcher.go:16). -/
structure Subscription where
  pluginID : String
  priority : Int
  handler : Handler
  ignoreCancelled : Bool

/-- `events.DispatchResult` (pkg/events/dispatcher.go:78).  `errors` counts
the entries of the `Errors` slice; `duration` is the recorded wall time. -/
structure DispatchResult where
  cancelled : Bool
  modifications : Option Mods
  handlers : Nat
  duration : Nat
  errors : Nat

/-- The zero value `DispatchResult{}` returned on the no-subscriber path. -/
def DispatchResult.zero : DispatchResult :=
  { cancelled := false, modifications := none, handlers := 0, duration := 0, errors := 0 }

/-- Merge one handler's modifications into the accumulated map:
`for k, v := range handlerResult.Modifications { result.Modifications[k] = v }`.
Keys written by the handler overwrite the accumulated entries. -/
def mergeMods (acc : Mods) (h : Mods) : Mods :=
  fun k => match h k with
    | some v => some v
    | none => acc k

/-- One iteration of the `for _, sub := range subs` loop body of
`Dispatcher.Dispatch` (pkg/events/dispatcher.go:103-128), applied to the
accumulated result.  Returns the updated result and whether the handler was
invoked (the guard `result.Cancelled && sub.IgnoreCancelled` did not skip it). -/
def dispatchStep (data : Bytes) (r : DispatchResult) (sub : Subscription) :
    DispatchResult × Bool :=
  if r.cancelled && sub.ignoreCancelled then
    (r, false)
  else
    match sub.handler data with
    | .error _ => ({ r with errors := r.errors + 1 }, true)
    | .ok hres =>
      let r1 := { r with handlers := r.handlers + 1 }
      match hres with
      | none => (r1, true)
      | some er =>
        ({ r1 with
            cancelled := r1.cancelled || er.cancelled,
            modifications := (r1.modifications.map (mergeMods · er.modifications)) },
         true)

/-- The whole handler loop of `Dispatcher.Dispatch` over a snapshot list. -/
def dispatchLoop (data : Bytes) (r : DispatchResult) : List Subscription → DispatchResult
  | [] => r
  | sub :: rest => dispatchLoop data (dispatchStep data r sub).1 rest

/-- The invocation trace of the handler loop: one `Bool` per subscription,
`true` exactly when `dispatchStep` ran the handler rather than skipping it. -/
def dispatchInvoked (data : Bytes) (r : DispatchResult) : List Subscription → List Bool
  | [] => []
  | sub :: rest =>
    (dispatchStep data r sub).2 :: dispatchInvoked data (dispatchStep data r sub).1 rest

/-- The dispatcher state (`events.Dispatcher`): per-event subscription lists
and the three per-event metric maps. -/
structure Dispatcher where
  subscriptions : EventType → List Subscription
  eventCount : EventType → Nat
  cancelCount : EventType → Nat
  dispatchTimes : EventType → Nat

/-- `events.NewDispatcher`: empty subscription and metric maps. -/
def Dispatcher.new : Dispatcher :=
  { subscriptions := fun _ => []
    eventCount := fun _ => 0
    cancelCount := fun _ => 0
    dispatchTimes := fun _ => 0 }

/-- Pointwise update of a string-keyed map. -/
def updateMap {α : Type} (m : EventType → α) (k : EventType) (v : α) : EventType → α :=
  fun k' => if k' = k then v else m k'

/-- The accumulator `&DispatchResult{Modifications: make(map[string]string)}`
initialised at pkg/events/dispatcher.go:101. -/
def dispatchInit : DispatchResult :=
  { cancelled := false, modifications := some emptyMods
    handlers := 0, duration := 0, errors := 0 }

/-- `Dispatcher.Dispatch` (pkg/events/dispatcher.go:90-141).  `elapsed` is the
wall-clock duration observed by `time.Since(start)`; the empty-subscription
path returns `DispatchResult{}` before any timing or metric code runs. -/
def Dispatcher.dispatch (d : Dispatcher) (event : EventType) (data : Bytes)
    (elapsed : Nat) : DispatchResult × Dispatcher :=
  let subs := d.subscriptions event
  if subs.length = 0 then
    (DispatchResult.zero, d)
  else
    let r1 := dispatchLoop data dispatchInit subs
    let r2 := { r1 with duration := elapsed }
    (r2,
      { d with
          eventCount := updateMap d.eventCount event (d.eventCount event + 1)
          cancelCount :=
            if r2.cancelled then
              updateMap d.cancelCount event (d.cancelCount event + 1)
            else d.cancelCount
          dispatchTimes := updateMap d.dispatchTimes event (d.dispatchTimes event + elapsed) })

/-!
## Event-result parsing

Both copies of `parseEventResult` — internal/manager/hostfuncs.go:851-857 and
internal/runtime/instance.go:184-190 — look only at the first output byte.
-/

/-- `parseEventResult` (internal/manager/hostfuncs.go:851):
`result.Cancelled = data[0] == 1` when `len(data) > 0`. -/
def parseEventResultMgr (data : Bytes) : EventResult :=
  { cancelled := match data with
      | [] => false
      | b :: _ => b == 1
    modifications := emptyMods }

/-- `parseEventResult` (internal/runtime/instance.go:184):
`if len(data) > 0 && data[0] == 1 { result.Cancelled = true }`. -/
def parseEventResultRt (data : Bytes) : EventResult :=
  { cancelled := match data with
      | [] => false
      | b :: _ => b == 1
    modifications := emptyMods }

/-- Looking up a key in a dispatch result's merged modification table
(`result.Modifications[k]`, `nil` map giving no entry). -/
def DispatchResult.getMod (r : DispatchResult) (k : String) : Option String :=
  match r.modifications with
  | none => none
  | some m => m k

/-!
## Concrete dispatcher states for the literal scenarios

Scenario S4/S5 (two `player_chat` handlers, the first cancelling) and
scenario S6 (two handlers writing the `message` modification key).
-/

/-- S4's `H1`: priority 0, returns `cancelled=true`. -/
def s4H1 : Subscription :=
  { pluginID := "p.one", priority := 0
    handler := fun _ => .ok (some { cancelled := true, modifications := emptyMods })
    ignoreCancelled := false }

/-- S4's `H2`: priority 100, `ignore_cancelled=false`, returns `cancelled=false`. -/
def s4H2 : Subscription :=
  { pluginID := "p.two", priority := 100
    handler := fun _ => .ok (some { cancelled := false, modifications := emptyMods })
    ignoreCancelled := false }

/-- A dispatcher holding S4's two subscriptions on `player_chat`, in the
ascending-priority order `Subscribe` maintains. -/
def s4Dispatcher : Dispatcher :=
  { Dispatcher.new with
      subscriptions := fun e => if e = "player_chat" then [s4H1, s4H2] else [] }

/-- S6's `H1` modification table `{message:"hello"}`. -/
def s6Mods1 : Mods := fun k => if k = "message" then some "hello" else none

/-- S6's `H2` modification table `{message:"world"}`. -/
def s6Mods2 : Mods := fun k => if k = "message" then some "world" else none

/-- S6's `H1`: priority 0, returns `{message:"hello"}`. -/
def s6H1 : Subscription :=
  { pluginID := "p.one", priority := 0
    handler := fun _ => .ok (some { cancelled := false, modifications := s6Mods1 })
    ignoreCancelled := false }

/-- S6's `H2`: priority 100, returns `{message:"world"}`. -/
def s6H2 : Subscription :=
  { pluginID := "p.two", priority := 100
    handler := fun _ => .ok (some { cancelled := false, modifications := s6Mods2 })
    ignoreCancelled := false }

/-- A dispatcher holding S6's two subscriptions on `player_chat`. -/
def s6Dispatcher : Dispatcher :=
  { Dispatcher.new with
      subscriptions := fun e => if e = "player_chat" then [s6H1, s6H2] else [] }

/-- Modelled from the spec: the "length-prefixed string→string table of
modifications" which §4.3 says follows the cancelled byte.  The source never
defines nor reads any such format (both `parseEventResult` copies stop at the
first byte), so a natural byte encoding is fixed here only to exhibit a
well-formed, non-empty table: a string is its length followed by its character
code points, a table is the entry count followed by the key/value pairs. -/
def specEncodeString (s : String) : Bytes :=
  s.length :: s.toList.map Char.toNat

/-- Modelled from the spec: table encoding, see `specEncodeString`. -/
def specEncodeTable (entries : List (String × String)) : Bytes :=
  entries.length :: (entries.map (fun kv => specEncodeString kv.1 ++ specEncodeString kv.2)).flatten

/-!
## Storage backends (internal/runtime/instance.go, `manager` storage file)

Both backends keep `data map[string]map[string][]byte`.  `FileStorage`
additionally mirrors each plugin namespace to `data.json`; its reads are
always served from the in-memory map, and `persist` only performs disk
writes, so the disk is outside this model and `persist` is the identity
(its error path is disk-failure only).
-/

/-- The nested `map[string]map[string][]byte`, through lookups. -/
abbrev StoreData := String → Option (String → Option Bytes)

/-- `MemoryStorage` (storage file, line 325). -/
structure MemoryStorage where
  data : StoreData

/-- `NewMemoryStorage`: empty data map. -/
def MemoryStorage.new : MemoryStorage := ⟨fun _ => none⟩

/-- `MemoryStorage.Get`: `value, exists := pluginData[key]; return value, exists, nil`;
a missing plugin namespace or key yields the `nil` slice and `false`. -/
def MemoryStorage.get (s : MemoryStorage) (pluginID key : String) : Bytes × Bool :=
  match s.data pluginID with
  | some pluginData =>
    match pluginData key with
    | some v => (v, true)
    | none => ([], false)
  | none => ([], false)

/-- `MemoryStorage.Set`: creates the plugin namespace if `nil`, then stores. -/
def MemoryStorage.set (s : MemoryStorage) (pluginID key : String) (value : Bytes) :
    MemoryStorage :=
  let pluginData := (s.data pluginID).getD (fun _ => none)
  ⟨fun p => if p = pluginID then
      some (fun k => if k = key then some value else pluginData k)
    else s.data p⟩

/-- `MemoryStorage.Delete`: removes the key when the namespace exists. -/
def MemoryStorage.delete (s : MemoryStorage) (pluginID key : String) : MemoryStorage :=
  match s.data pluginID with
  | some pluginData =>
    ⟨fun p => if p = pluginID then
        some (fun k => if k = key then none else pluginData k)
      else s.data p⟩
  | none => s

/-- `MemoryStorage.Clear`: drops the whole namespace. -/
def MemoryStorage.clear (s : MemoryStorage) (pluginID : String) : MemoryStorage :=
  ⟨fun p => if p = pluginID then none else s.data p⟩

/-- `FileStorage` (storage file, line 209): same in-memory map plus a base
path for the per-plugin `data.json` mirrors. -/
structure FileStorage where
  basePath : String
  data : StoreData

/-- `FileStorage.Get` — identical lookup logic to the memory backend
(reads never touch the disk). -/
def FileStorage.get (s : FileStorage) (pluginID key : String) : Bytes × Bool :=
  match s.data pluginID with
  | some pluginData =>
    match pluginData key with
    | some v => (v, true)
    | none => ([], false)
  | none => ([], false)

/-- `FileStorage.Set`: store, then `persist(pluginID)` (a disk write, the
identity on the in-memory state). -/
def FileStorage.set (s : FileStorage) (pluginID key : String) (value : Bytes) :
    FileStorage :=
  let pluginData := (s.data pluginID).getD (fun _ => none)
  let newData : StoreData := fun p =>
    if p = pluginID then some (fun k => if k = key then some value else pluginData k)
    else s.data p
  { s with data := newData }

/-- `FileStorage.Delete`: delete and persist when the namespace exists. -/
def FileStorage.delete (s : FileStorage) (pluginID key : String) : FileStorage :=
  match s.data pluginID with
  | some pluginData =>
    let newData : StoreData := fun p =>
      if p = pluginID then some (fun k => if k = key then none else pluginData k)
      else s.data p
    { s with data := newData }
  | none => s

/-!
## Instance pool (src/unnamed pool file, package runtime)

The buffered channel `instances` is a FIFO queue whose capacity is the fixed
`size`; instances are opaque identifiers here.  `Release` is a `select` with
a `default` arm, so a full channel destroys the instance instead of blocking.
-/

/-- The pool state: fixed `size` (channel capacity), the channel contents
(front = next receive), and the `closed` flag. -/
structure Pool where
  size : Nat
  buffer : List Nat
  closed : Bool

/-- `NewPool` after filling: `size` fresh instances sit in the channel. -/
def Pool.newPool (size : Nat) : Pool :=
  { size := size, buffer := List.range size, closed := false }

/-- The outcome of one pool operation: the new state, plus which instance was
handed out (acquire) and which was destroyed (`inst.Close()`), if any. -/
structure PoolStep where
  state : Pool
  acquired : Option Nat
  destroyed : List Nat

/-- `Pool.Acquire`: closed pools fail; otherwise a non-blocking receive
(`select` with `default`) pops the front instance or fails `PoolExhausted`. -/
def Pool.acquire (p : Pool) : PoolStep :=
  if p.closed then ⟨p, none, []⟩
  else match p.buffer with
    | [] => ⟨p, none, []⟩
    | inst :: rest => ⟨{ p with buffer := rest }, some inst, []⟩

/-- `Pool.AcquireWait`: closed pools fail; otherwise receive the front
instance (an empty buffer blocks until release or context cancel — the
blocked/cancelled outcome leaves the state unchanged). -/
def Pool.acquireWait (p : Pool) : PoolStep :=
  if p.closed then ⟨p, none, []⟩
  else match p.buffer with
    | [] => ⟨p, none, []⟩
    | inst :: rest => ⟨{ p with buffer := rest }, some inst, []⟩

/-- `Pool.Release` (pool file, lines 101-115): a closed pool destroys the
instance; otherwise `select { case p.instances <- inst: default: inst.Close() }`
re-queues it only when the channel has free capacity. -/
def Pool.release (p : Pool) (inst : Nat) : PoolStep :=
  if p.closed then ⟨p, none, [inst]⟩
  else if p.buffer.length < p.size then
    ⟨{ p with buffer := p.buffer ++ [inst] }, none, []⟩
  else ⟨p, none, [inst]⟩

/-- `Pool.Close` (pool file, lines 120-134): idempotent; sets `closed`, then
drains and destroys every buffered instance. -/
def Pool.close (p : Pool) : PoolStep :=
  if p.closed then ⟨p, none, []⟩
  else ⟨{ p with closed := true, buffer := [] }, none, p.buffer⟩

/-- `Available()` is the channel length; `Size()` the fixed capacity. -/
def Pool.available (p : Pool) : Nat := p.buffer.length

/-- A pool API call, for reasoning about arbitrary operation sequences. -/
inductive PoolOp where
  | acquire : PoolOp
  | acquireWait : PoolOp
  | release : Nat → PoolOp
  | close : PoolOp

/-- Run one operation, keeping only the state. -/
def Pool.step (p : Pool) : PoolOp → Pool
  | .acquire => p.acquire.state
  | .acquireWait => p.acquireWait.state
  | .release inst => (p.release inst).state
  | .close => p.close.state

/-- Run a sequence of operations. -/
def Pool.run (p : Pool) : List PoolOp → Pool
  | [] => p
  | op :: ops => (p.step op).run ops

/-!
## Resource limits and engine-instance construction

`config.Config.GetEffectiveLimits` (pkg/config/config.go) resolves a
manifest's limits; `Manager.loadPlugin` (internal/manager/hostfuncs.go:743-751)
and `runtime.NewInstance` (internal/runtime/instance.go:32-52) each build an
`extism.Manifest` from them.  Only the memory section of that manifest is
modelled; the Wasm payload is irrelevant to the claims.
-/

/-- `plugin.ResourceLimits`: `MaxMemoryMB` and `MaxExecutionMs` are Go
`int64`, `MaxFuel` a `uint64`. -/
structure ResourceLimits where
  maxMemoryMB : Int
  maxExecutionMs : Int
  maxFuel : Nat

/-- The slice of `config.Config` read by `GetEffectiveLimits`. -/
structure Config where
  defaultLimits : ResourceLimits
  globalLimits : ResourceLimits

/-- `config.DefaultConfig()`: default limits 64 MB / 100 ms / 1M fuel,
global ceiling 256 MB / 1000 ms / 10M fuel. -/
def Config.default : Config :=
  { defaultLimits := { maxMemoryMB := 64, maxExecutionMs := 100, maxFuel := 1000000 }
    globalLimits := { maxMemoryMB := 256, maxExecutionMs := 1000, maxFuel := 10000000 } }

/-- `Config.GetEffectiveLimits`: zero fields inherit the default, then every
field is floored against the global ceiling. -/
def Config.getEffectiveLimits (c : Config) (l : ResourceLimits) : ResourceLimits :=
  let m1 := if l.maxMemoryMB = 0 then c.defaultLimits.maxMemoryMB else l.maxMemoryMB
  let e1 := if l.maxExecutionMs = 0 then c.defaultLimits.maxExecutionMs else l.maxExecutionMs
  let f1 := if l.maxFuel = 0 then c.defaultLimits.maxFuel else l.maxFuel
  { maxMemoryMB := min m1 c.globalLimits.maxMemoryMB
    maxExecutionMs := min e1 c.globalLimits.maxExecutionMs
    maxFuel := min f1 c.globalLimits.maxFuel }

/-- Go's `uint32(x)` conversion of an `int64`: truncation mod `2^32`. -/
def toUint32 (x : Int) : Nat := (x % (2 ^ 32)).toNat

/-- The memory section of an `extism.Manifest`: `Memory.MaxPages` when a
`Memory` section is present, `none` when the field is left unset. -/
structure ExtismManifestMemory where
  maxPages : Option Nat

/-- The manifest memory section built by `Manager.loadPlugin`
(hostfuncs.go:744-751): `MaxPages: uint32(limits.MaxMemoryMB * 16)` from the
effective limits (16 pages of 64 KiB = 1 MiB per configured MB). -/
def loadPluginMemory (c : Config) (l : ResourceLimits) : ExtismManifestMemory :=
  let limits := c.getEffectiveLimits l
  { maxPages := some (toUint32 (limits.maxMemoryMB * 16)) }

/-- The manifest built by `runtime.NewInstance` (instance.go:38-46): the
effective limits are computed and then discarded (`_ = limits`), and no
`Memory` section is set on the `extism.Manifest`. -/
def newInstanceMemory (c : Config) (l : ResourceLimits) : ExtismManifestMemory :=
  let _ := c.getEffectiveLimits l
  { maxPages := none }

/-!
## Dependency resolver (`Manager.sortByDependencies`, internal/manager/hostfuncs.go:661-722)

Kahn's algorithm over the graph whose edge `B → A` exists for every
dependency entry of manifest `A` whose target `B` is present (optional
entries with an absent target are silently dropped, non-optional absent
targets are an error) and for every `load_after` entry with a present
target.  The work queue is re-sorted lexicographically after every insert
(`sort.Strings`), so ready nodes are popped in ascending id order.

Go maps are total functions here; the map *key set* of `inDegree` (which Go
iterates to seed the queue) is carried separately as the manifest id list.
`sort.Strings` is embedded as insertion sort: a sorted permutation of a list
of strings is unique, so any correct sort is extensionally `sort.Strings`.
The loop runs on explicit fuel; one queue entry is popped per iteration and
every id is enqueued at most once (an id is enqueued only when its strictly
decreasing degree counter reaches zero), so `2 * ms.length + 2` iterations
are never reached.
-/

/-- `plugin.Dependency`, the fields the resolver reads. -/
structure Dependency where
  id : String
  optional : Bool

/-- The slice of `plugin.Manifest` the resolver reads. -/
structure Manifest where
  id : String
  dependencies : List Dependency
  loadAfter : List String

/-- The `manifestMap` built at hostfuncs.go:662-665: id → manifest, a later
manifest with the same id overwriting an earlier one (hence the reversed
`find?`). -/
def manifestMap (ms : List Manifest) (id : String) : Option Manifest :=
  ms.reverse.find? (fun m => m.id = id)

/-- Whether a plugin id is present among the discovered manifests. -/
def isPresent (ms : List Manifest) (id : String) : Bool :=
  (manifestMap ms id).isSome

/-- The mutable graph state of `sortByDependencies`: the `inDegree` counters
(Go `map[string]int`) and the `dependents` adjacency lists. -/
structure GraphSt where
  inDegree : String → Int
  dependents : String → List String

/-- The `for _, dep := range manifest.Dependencies` body (hostfuncs.go:675-685):
a non-optional absent dependency is an error; a present one (optional or not)
adds an edge. -/
def addDepEdges (ms : List Manifest) (mid : String) :
    List Dependency → GraphSt → Except String GraphSt
  | [], st => .ok st
  | d :: rest, st =>
    if !d.optional && !isPresent ms d.id then
      .error ("plugin " ++ mid ++ " requires missing dependency " ++ d.id)
    else
      let st' :=
        if isPresent ms d.id then
          { inDegree := updateMap st.inDegree mid (st.inDegree mid + 1)
            dependents := updateMap st.dependents d.id (st.dependents d.id ++ [mid]) }
        else st
      addDepEdges ms mid rest st'

/-- The `for _, id := range manifest.LoadAfter` body (hostfuncs.go:687-692). -/
def addLoadAfterEdges (ms : List Manifest) (mid : String) :
    List String → GraphSt → GraphSt
  | [], st => st
  | a :: rest, st =>
    let st' :=
      if isPresent ms a then
        { inDegree := updateMap st.inDegree mid (st.inDegree mid + 1)
          dependents := updateMap st.dependents a (st.dependents a ++ [mid]) }
      else st
    addLoadAfterEdges ms mid rest st'

/-- The whole graph-building loop over the manifests (hostfuncs.go:670-693). -/
def buildGraph (ms : List Manifest) : List Manifest → GraphSt → Except String GraphSt
  | [], st => .ok st
  | m :: rest, st =>
    match addDepEdges ms m.id m.dependencies st with
    | .error e => .error e
    | .ok st1 => buildGraph ms rest (addLoadAfterEdges ms m.id m.loadAfter st1)

/-- `sort.Strings`: ascending lexicographic sort. -/
def sortStrings (l : List String) : List String :=
  l.insertionSort (· ≤ ·)

/-- The `for _, dependent := range dependents[id]` body (hostfuncs.go:709-715):
decrement each dependent's degree and enqueue (re-sorting the queue) those
that reach zero. -/
def processDependents (deg : String → Int) (queue : List String) :
    List String → (String → Int) × List String
  | [] => (deg, queue)
  | d :: rest =>
    let deg' := updateMap deg d (deg d - 1)
    let queue' := if deg' d = 0 then sortStrings (queue ++ [d]) else queue
    processDependents deg' queue' rest

/-- The Kahn work loop (hostfuncs.go:704-716), returning the pop order. -/
def kahnLoop (dependents : String → List String) :
    Nat → (String → Int) → List String → List String → List String
  | 0, _, _, result => result
  | _ + 1, _, [], result => result
  | fuel + 1, deg, id :: queue, result =>
    let dq := processDependents deg queue (dependents id)
    kahnLoop dependents fuel dq.1 dq.2 (result ++ [id])

/-- `Manager.sortByDependencies` (hostfuncs.go:661-722). -/
def sortByDependencies (ms : List Manifest) : Except String (List Manifest) :=
  match buildGraph ms ms ⟨fun _ => 0, fun _ => []⟩ with
  | .error e => .error e
  | .ok st =>
    let keys := (ms.map Manifest.id).eraseDups
    let queue0 := sortStrings (keys.filter (fun id => st.inDegree id = 0))
    let resultIds := kahnLoop st.dependents (2 * ms.length + 2) st.inDegree queue0 []
    let result := resultIds.filterMap (manifestMap ms)
    if result.length = ms.length then .ok result
    else .error "circular dependency detected"

/-!
### Reference quantities for the resolver proofs
-/

/-- The edge targets of one manifest: ids of present dependency entries
followed by present `load_after` entries (the order and multiplicity in which
`buildGraph` counts them). -/
def edgeTargets (ms : List Manifest) (m : Manifest) : List String :=
  (m.dependencies.filter (fun d => isPresent ms d.id)).map Dependency.id
    ++ m.loadAfter.filter (fun a => isPresent ms a)

/-- The edge targets of a plugin id (empty for an absent id). -/
def targetsOf (ms : List Manifest) (id : String) : List String :=
  match manifestMap ms id with
  | some m => edgeTargets ms m
  | none => []

/-- The remaining in-degree of `id` once the ids in `done` have been popped:
the number of its edge targets (with multiplicity) not yet in `done`. -/
def specDeg (ms : List Manifest) (done : List String) (id : String) : Int :=
  (((targetsOf ms id).filter (fun t => decide (t ∉ done))).length : Int)

/-- The sorted queue of ready ids: present, not yet popped, all edge targets
popped.  This is what the re-sorted Go queue holds at every iteration. -/
def readyQueue (ms : List Manifest) (done : List String) : List String :=
  sortStrings ((ms.map Manifest.id).filter
    (fun id => decide (id ∉ done) && (targetsOf ms id).all (fun t => decide (t ∈ done))))

/-- The resolution order the spec describes: starting from `done`, repeatedly
pop the lexicographically least ready id.  This is the reference the code's
loop is proved equal to. -/
def specPops (ms : List Manifest) : Nat → List String → List String
  | 0, _ => []
  | fuel + 1, done =>
    match readyQueue ms done with
    | [] => []
    | u :: _ => u :: specPops ms fuel (done ++ [u])

/-- Acyclicity of the present-edge graph, in the finite-subset form: every
nonempty subset of the discovered ids contains a node none of whose edge
targets lies in the subset.  (Decidable, so concrete instances can be checked
by evaluation.) -/
def Acyclic (ms : List Manifest) : Prop :=
  ∀ U ∈ (ms.map Manifest.id).toFinset.powerset, U.Nonempty →
    ∃ u ∈ U, ∀ t ∈ targetsOf ms u, t ∉ U

instance (ms : List Manifest) : Decidable (Acyclic ms) := by
  unfold Acyclic
  infer_instance

/-- The S1 manifests: `a.one` (deps: `a.two`), `a.two`, `a.three`
(load_after: `a.one`). -/
def s1One : Manifest := { id := "a.one", dependencies := [⟨"a.two", false⟩], loadAfter := [] }

/-- S1's `a.two`: no dependencies. -/
def s1Two : Manifest := { id := "a.two", dependencies := [], loadAfter := [] }

/-- S1's `a.three`: `load_after: a.one`. -/
def s1Three : Manifest := { id := "a.three", dependencies := [], loadAfter := ["a.one"] }

/-- The S1 input set, in discovery order. -/
def s1Manifests : List Manifest := [s1One, s1Two, s1Three]

/-- The ids enqueued by one `processDependents` pass: mirrors its recursion,
recording each dependent whose decremented counter reaches exactly zero. -/
def pushedIds (deg : String → Int) : List String → List String
  | [] => []
  | d :: rest =>
    let deg' := updateMap deg d (deg d - 1)
    (if deg' d = 0 then [d] else []) ++ pushedIds deg' rest

/-- The total in-degree contribution of a manifest list to the id `x`:
each manifest with id `x` contributes one unit per edge target. -/
def degContrib (ms list : List Manifest) (x : String) : Int :=
  ((list.filter (fun m => m.id = x)).map
    (fun m => ((edgeTargets ms m).length : Int))).sum

/-- The dependents-list contribution of a manifest list to the key `b`:
each manifest appends its own id once per edge entry targeting `b`. -/
def depContrib (ms list : List Manifest) (b : String) : List String :=
  (list.map (fun m => List.replicate ((edgeTargets ms m).count b) m.id)).flatten

/-- Every prefix of the pop order is closed under edge targets: the targets
of the id at position `i` all occur before position `i`. -/
def PrefixClosed (ms : List Manifest) (l : List String) : Prop :=
  ∀ (i : Nat) (h : i < l.length), ∀ t ∈ targetsOf ms (l.get ⟨i, h⟩), t ∈ l.take i

/-- The loop invariant on the popped-id list: no duplicates, only discovered
ids, and closed under edge targets. -/
def ResolverInv (ms : List Manifest) (done : List String) : Prop :=
  done.Nodup ∧ (∀ x ∈ done, x ∈ ms.map Manifest.id) ∧
    (∀ x ∈ done, ∀ t ∈ targetsOf ms x, t ∈ done)

/-!
## `slices.SortFunc` (Go standard library pdqsort)

`Dispatcher.Subscribe` re-sorts the subscription list with `slices.SortFunc`
(pkg/events/dispatcher.go:53), whose documented contract does *not* promise
stability.  To decide the ordering claim the implementation behind that call
— pattern-defeating quicksort as generated in Go's
`slices/zsortanyfunc.go` — is embedded below, loop for loop.

Conventions: arrays with `Array.get!`/`Array.swap!` (all accesses are in
bounds along Go's control flow); each Go `for` loop is a recursion either
structural on a counter that mirrors the loop counter, or on an explicit
fuel that over-approximates its iteration count (scan loops move an index
monotonically through `[a, b)`, so `b + 2` steps suffice; the main pdqsort
loop/recursion strictly shrinks the range on every step, so the sum of all
range lengths — at most `(n + 2)²` — bounds the total step count).
-/

/-- The `sortedHint` values of Go's `choosePivotCmpFunc`. -/
inductive SortHint where
  | unknown : SortHint
  | increasing : SortHint
  | decreasing : SortHint
deriving DecidableEq

instance : Inhabited Subscription :=
  ⟨{ pluginID := "", priority := 0, handler := fun _ => .ok none, ignoreCancelled := false }⟩

/-- Inner shift of `insertionSortCmpFunc`: move `data[j]` left while it
compares below its predecessor and `j > a`. -/
def goInsertInner {α : Type} [Inhabited α] (cmp : α → α → Int) (a : Nat) :
    Nat → Array α → Nat → Array α
  | 0, data, _ => data
  | fuel + 1, data, j =>
    if a < j ∧ cmp (data.get! j) (data.get! (j - 1)) < 0 then
      goInsertInner cmp a fuel (data.swap! j (j - 1)) (j - 1)
    else data

/-- Outer loop of `insertionSortCmpFunc` over `i = a+1, …, b-1`. -/
def goInsertionSortLoop {α : Type} [Inhabited α] (cmp : α → α → Int) (a b : Nat) :
    Nat → Array α → Nat → Array α
  | 0, data, _ => data
  | fuel + 1, data, i =>
    if i < b then
      goInsertionSortLoop cmp a b fuel (goInsertInner cmp a (i + 1) data i) (i + 1)
    else data

/-- `insertionSortCmpFunc(data, a, b, cmp)`. -/
def goInsertionSort {α : Type} [Inhabited α] (cmp : α → α → Int)
    (data : Array α) (a b : Nat) : Array α :=
  goInsertionSortLoop cmp a b (b + 1) data (a + 1)

/-- `siftDownCmpFunc(data, lo, hi, first, cmp)`, recursing on the root. -/
def goSiftDown {α : Type} [Inhabited α] (cmp : α → α → Int) (first hi : Nat) :
    Nat → Array α → Nat → Array α
  | 0, data, _ => data
  | fuel + 1, data, root =>
    let child := 2 * root + 1
    if child ≥ hi then data
    else
      let child :=
        if child + 1 < hi ∧ cmp (data.get! (first + child)) (data.get! (first + child + 1)) < 0
        then child + 1 else child
      if ¬ cmp (data.get! (first + root)) (data.get! (first + child)) < 0 then data
      else goSiftDown cmp first hi fuel (data.swap! (first + root) (first + child)) child

/-- Heap-building countdown of `heapSortCmpFunc` (`i = (hi-1)/2, …, 0`). -/
def goHeapBuild {α : Type} [Inhabited α] (cmp : α → α → Int) (first hi : Nat) :
    Array α → Nat → Array α
  | data, 0 => goSiftDown cmp first hi (hi + 1) data 0
  | data, i + 1 =>
    goHeapBuild cmp first hi (goSiftDown cmp first hi (hi + 1) data (i + 1)) i

/-- Pop countdown of `heapSortCmpFunc` (`i = hi-1, …, 0`). -/
def goHeapPop {α : Type} [Inhabited α] (cmp : α → α → Int) (first : Nat) :
    Array α → Nat → Array α
  | data, 0 => goSiftDown cmp first 0 1 (data.swap! first first) 0
  | data, i + 1 =>
    goHeapPop cmp first
      (goSiftDown cmp first (i + 1) (i + 2) (data.swap! first (first + (i + 1))) 0) i

/-- `heapSortCmpFunc(data, a, b, cmp)` (only reached with `b - a > 12`). -/
def goHeapSort {α : Type} [Inhabited α] (cmp : α → α → Int)
    (data : Array α) (a b : Nat) : Array α :=
  let hi := b - a
  if hi = 0 then data
  else goHeapPop cmp a (goHeapBuild cmp a hi data ((hi - 1) / 2)) (hi - 1)

/-- `for i <= j && cmp(data[i], data[a]) < 0 { i++ }`. -/
def goScanI {α : Type} [Inhabited α] (cmp : α → α → Int)
    (data : Array α) (a j : Nat) : Nat → Nat → Nat
  | 0, i => i
  | fuel + 1, i =>
    if i ≤ j ∧ cmp (data.get! i) (data.get! a) < 0 then goScanI cmp data a j fuel (i + 1)
    else i

/-- `for i <= j && !(cmp(data[j], data[a]) < 0) { j-- }`. -/
def goScanJ {α : Type} [Inhabited α] (cmp : α → α → Int)
    (data : Array α) (a i : Nat) : Nat → Nat → Nat
  | 0, j => j
  | fuel + 1, j =>
    if i ≤ j ∧ ¬ cmp (data.get! j) (data.get! a) < 0 then goScanJ cmp data a i fuel (j - 1)
    else j

/-- The swapping loop of `partitionCmpFunc`, returning the final `j`. -/
def goPartitionLoop {α : Type} [Inhabited α] (cmp : α → α → Int) (a b : Nat) :
    Nat → Array α → Nat → Nat → Array α × Nat
  | 0, data, _, j => (data, j)
  | fuel + 1, data, i, j =>
    let i := goScanI cmp data a j (b + 2) i
    let j := goScanJ cmp data a i (b + 2) j
    if i > j then (data, j)
    else goPartitionLoop cmp a b fuel (data.swap! i j) (i + 1) (j - 1)

/-- `partitionCmpFunc(data, a, b, pivot, cmp)`:
returns `(data, newpivot, alreadyPartitioned)`. -/
def goPartition {α : Type} [Inhabited α] (cmp : α → α → Int)
    (data : Array α) (a b pivot : Nat) : Array α × Nat × Bool :=
  let data := data.swap! a pivot
  let i := goScanI cmp data a (b - 1) (b + 2) (a + 1)
  let j := goScanJ cmp data a i (b + 2) (b - 1)
  if i > j then (data.swap! j a, j, true)
  else
    let dj := goPartitionLoop cmp a b (b + 2) (data.swap! i j) (i + 1) (j - 1)
    (dj.1.swap! dj.2 a, dj.2, false)

/-- `for i <= j && !(cmp(data[a], data[i]) < 0) { i++ }`. -/
def goScanIEq {α : Type} [Inhabited α] (cmp : α → α → Int)
    (data : Array α) (a j : Nat) : Nat → Nat → Nat
  | 0, i => i
  | fuel + 1, i =>
    if i ≤ j ∧ ¬ cmp (data.get! a) (data.get! i) < 0 then goScanIEq cmp data a j fuel (i + 1)
    else i

/-- `for i <= j && (cmp(data[a], data[j]) < 0) { j-- }`. -/
def goScanJEq {α : Type} [Inhabited α] (cmp : α → α → Int)
    (data : Array α) (a i : Nat) : Nat → Nat → Nat
  | 0, j => j
  | fuel + 1, j =>
    if i ≤ j ∧ cmp (data.get! a) (data.get! j) < 0 then goScanJEq cmp data a i fuel (j - 1)
    else j

/-- The swapping loop of `partitionEqualCmpFunc`, returning the final `i`. -/
def goPartitionEqualLoop {α : Type} [Inhabited α] (cmp : α → α → Int) (a b : Nat) :
    Nat → Array α → Nat → Nat → Array α × Nat
  | 0, data, i, _ => (data, i)
  | fuel + 1, data, i, j =>
    let i := goScanIEq cmp data a j (b + 2) i
    let j := goScanJEq cmp data a i (b + 2) j
    if i > j then (data, i)
    else goPartitionEqualLoop cmp a b fuel (data.swap! i j) (i + 1) (j - 1)

/-- `partitionEqualCmpFunc(data, a, b, pivot, cmp)`. -/
def goPartitionEqual {α : Type} [Inhabited α] (cmp : α → α → Int)
    (data : Array α) (a b pivot : Nat) : Array α × Nat :=
  goPartitionEqualLoop cmp a b (b + 2) (data.swap! a pivot) (a + 1) (b - 1)

/-- `for i < b && !(cmp(data[i], data[i-1]) < 0) { i++ }`. -/
def goPISScan {α : Type} [Inhabited α] (cmp : α → α → Int) (b : Nat)
    (data : Array α) : Nat → Nat → Nat
  | 0, i => i
  | fuel + 1, i =>
    if i < b ∧ ¬ cmp (data.get! i) (data.get! (i - 1)) < 0 then
      goPISScan cmp b data fuel (i + 1)
    else i

/-- The left shift of `partialInsertionSortCmpFunc` (`j = i-1, …, 1`);
the argument is the current Go `j`. -/
def goPISShiftLeft {α : Type} [Inhabited α] (cmp : α → α → Int) :
    Array α → Nat → Array α
  | data, 0 => data
  | data, j + 1 =>
    if cmp (data.get! (j + 1)) (data.get! j) < 0 then
      goPISShiftLeft cmp (data.swap! (j + 1) j) j
    else data

/-- The right shift of `partialInsertionSortCmpFunc` (`j = i+1, …, b-1`). -/
def goPISShiftRight {α : Type} [Inhabited α] (cmp : α → α → Int) (b : Nat) :
    Nat → Array α → Nat → Array α
  | 0, data, _ => data
  | fuel + 1, data, j =>
    if j < b ∧ cmp (data.get! j) (data.get! (j - 1)) < 0 then
      goPISShiftRight cmp b fuel (data.swap! j (j - 1)) (j + 1)
    else data

/-- The `maxSteps`-bounded loop of `partialInsertionSortCmpFunc`. -/
def goPartialInsertionSortLoop {α : Type} [Inhabited α] (cmp : α → α → Int)
    (a b : Nat) : Nat → Array α → Nat → Array α × Bool
  | 0, data, _ => (data, false)
  | steps + 1, data, i =>
    let i := goPISScan cmp b data (b + 2) i
    if i = b then (data, true)
    else if b - a < 50 then (data, false)
    else
      let data := data.swap! i (i - 1)
      let data := if i - a ≥ 2 then goPISShiftLeft cmp data (i - 1) else data
      let data := if b - i ≥ 2 then goPISShiftRight cmp b (b + 2) data (i + 1) else data
      goPartialInsertionSortLoop cmp a b steps data i

/-- `partialInsertionSortCmpFunc(data, a, b, cmp)` (`maxSteps = 5`). -/
def goPartialInsertionSort {α : Type} [Inhabited α] (cmp : α → α → Int)
    (data : Array α) (a b : Nat) : Array α × Bool :=
  goPartialInsertionSortLoop cmp a b 5 data (a + 1)

/-- One step of the `xorshift` generator (`uint64` state). -/
def xorshiftNext (r : Nat) : Nat :=
  let r := (r ^^^ (r <<< 13)) % 2 ^ 64
  let r := r ^^^ (r >>> 7)
  (r ^^^ (r <<< 17)) % 2 ^ 64

/-- Fuel-driven bit length: `bitLenAux fuel n = bits.Len(n)` whenever `fuel ≥ n`
(structural recursion on the fuel, so it reduces definitionally). -/
def bitLenAux : Nat → Nat → Nat
  | 0, _ => 0
  | fuel + 1, n => if n = 0 then 0 else bitLenAux fuel (n / 2) + 1

/-- `bits.Len(n)`: number of bits of `n` (`0` for `0`). -/
def bitLen (n : Nat) : Nat := bitLenAux n n

/-- `nextPowerOfTwo(length) = 1 << bits.Len(uint(length))`. -/
def nextPowerOfTwo (length : Nat) : Nat := 1 <<< bitLen length

/-- The three swaps of `breakPatternsCmpFunc`. -/
def goBreakPatternsSwaps {α : Type} [Inhabited α] (a length modulus idx : Nat) :
    Nat → Array α → Nat → Array α
  | 0, data, _ => data
  | n + 1, data, random =>
    let random := xorshiftNext random
    let other := random &&& (modulus - 1)
    let other := if other ≥ length then other - length else other
    goBreakPatternsSwaps a length modulus idx n
      (data.swap! (idx - 1 + (2 - n)) (a + other)) random

/-- `breakPatternsCmpFunc(data, a, b, cmp)` (the comparator is unused). -/
def goBreakPatterns {α : Type} [Inhabited α] (data : Array α) (a b : Nat) : Array α :=
  let length := b - a
  if length ≥ 8 then
    let modulus := nextPowerOfTwo length
    let idx := a + (length / 4) * 2 - 1
    goBreakPatternsSwaps a length modulus idx 3 data length
  else data

/-- `order2CmpFunc`: returns `(x, y, swaps)` with `data[x] <= data[y]`. -/
def goOrder2 {α : Type} [Inhabited α] (cmp : α → α → Int)
    (data : Array α) (a b swaps : Nat) : Nat × Nat × Nat :=
  if cmp (data.get! b) (data.get! a) < 0 then (b, a, swaps + 1) else (a, b, swaps)

/-- `medianCmpFunc`: index of the median of three, counting swaps. -/
def goMedian {α : Type} [Inhabited α] (cmp : α → α → Int)
    (data : Array α) (a b c swaps : Nat) : Nat × Nat :=
  let r1 := goOrder2 cmp data a b swaps
  let r2 := goOrder2 cmp data r1.2.1 c r1.2.2
  let r3 := goOrder2 cmp data r1.1 r2.1 r2.2.2
  (r3.2.1, r3.2.2)

/-- `medianAdjacentCmpFunc`: median of `data[a-1], data[a], data[a+1]`. -/
def goMedianAdjacent {α : Type} [Inhabited α] (cmp : α → α → Int)
    (data : Array α) (a swaps : Nat) : Nat × Nat :=
  goMedian cmp data (a - 1) a (a + 1) swaps

/-- `choosePivotCmpFunc(data, a, b, cmp)` (`shortestNinther = 50`,
`maxSwaps = 12`). -/
def goChoosePivot {α : Type} [Inhabited α] (cmp : α → α → Int)
    (data : Array α) (a b : Nat) : Nat × SortHint :=
  let l := b - a
  let i := a + l / 4 * 1
  let j := a + l / 4 * 2
  let k := a + l / 4 * 3
  let r :=
    if l ≥ 8 then
      let ijks :=
        if l ≥ 50 then
          let ri := goMedianAdjacent cmp data i 0
          let rj := goMedianAdjacent cmp data j ri.2
          let rk := goMedianAdjacent cmp data k rj.2
          (ri.1, rj.1, rk.1, rk.2)
        else (i, j, k, 0)
      goMedian cmp data ijks.1 ijks.2.1 ijks.2.2.1 ijks.2.2.2
    else (j, 0)
  match r.2 with
  | 0 => (r.1, SortHint.increasing)
  | 12 => (r.1, SortHint.decreasing)
  | _ => (r.1, SortHint.unknown)

/-- `reverseRangeCmpFunc(data, a, b)`. -/
def goReverseRange {α : Type} [Inhabited α] :
    Nat → Array α → Nat → Nat → Array α
  | 0, data, _, _ => data
  | fuel + 1, data, i, j =>
    if i < j then goReverseRange fuel (data.swap! i j) (i + 1) (j - 1) else data

/-- `pdqsortCmpFunc(data, a, b, limit, cmp)`; the Go in-function loop is the
recursion carrying the `wasBalanced`/`wasPartitioned` flags
(`maxInsertion = 12`). -/
def goPdqsort {α : Type} [Inhabited α] (cmp : α → α → Int) :
    Nat → Array α → Nat → Nat → Nat → Bool → Bool → Array α
  | 0, data, _, _, _, _, _ => data
  | fuel + 1, data, a, b, limit, wasBalanced, wasPartitioned =>
    let length := b - a
    if length ≤ 12 then goInsertionSort cmp data a b
    else if limit = 0 then goHeapSort cmp data a b
    else
      let dl := if ¬ wasBalanced then (goBreakPatterns data a b, limit - 1) else (data, limit)
      let data := dl.1
      let limit := dl.2
      let ph := goChoosePivot cmp data a b
      let dph :=
        if ph.2 = SortHint.decreasing then
          (goReverseRange (b + 2) data a (b - 1), (b - 1) - (ph.1 - a), SortHint.increasing)
        else (data, ph.1, ph.2)
      let data := dph.1
      let pivot := dph.2.1
      let hint := dph.2.2
      let ds :=
        if wasBalanced ∧ wasPartitioned ∧ hint = SortHint.increasing then
          goPartialInsertionSort cmp data a b
        else (data, false)
      if ds.2 then ds.1
      else
        let data := ds.1
        if 0 < a ∧ ¬ cmp (data.get! (a - 1)) (data.get! pivot) < 0 then
          let dm := goPartitionEqual cmp data a b pivot
          goPdqsort cmp fuel dm.1 dm.2 b limit wasBalanced wasPartitioned
        else
          let dmp := goPartition cmp data a b pivot
          let data := dmp.1
          let mid := dmp.2.1
          let wasPartitioned := dmp.2.2
          let leftLen := mid - a
          let rightLen := b - mid
          let balanceThreshold := length / 8
          let wasBalanced := decide (min leftLen rightLen ≥ balanceThreshold)
          if leftLen < rightLen then
            goPdqsort cmp fuel (goPdqsort cmp fuel data a mid limit true true)
              (mid + 1) b limit wasBalanced wasPartitioned
          else
            goPdqsort cmp fuel (goPdqsort cmp fuel data (mid + 1) b limit true true)
              a mid limit wasBalanced wasPartitioned

/-- `slices.SortFunc(x, cmp)`:
`pdqsortCmpFunc(x, 0, n, bits.Len(uint(n)), cmp)`. -/
def goSortFunc {α : Type} [Inhabited α] (cmp : α → α → Int) (x : Array α) : Array α :=
  goPdqsort cmp ((x.size + 2) * (x.size + 2)) x 0 x.size (bitLen x.size) true true

/-- Go two's-complement 64-bit wrap-around of an integer. -/
def wrap64 (x : Int) : Int := (x + 2 ^ 63) % 2 ^ 64 - 2 ^ 63

/-- The comparator of `Dispatcher.Subscribe`
(`int(a.Priority - b.Priority)`, 64-bit `int` subtraction). -/
def goCmpSubscription (a b : Subscription) : Int :=
  wrap64 (a.priority - b.priority)

/-- `Dispatcher.Subscribe` (pkg/events/dispatcher.go:48-56): append the
subscription, then re-sort the event's list with `slices.SortFunc`. -/
def Dispatcher.subscribe (d : Dispatcher) (event : EventType) (sub : Subscription) :
    Dispatcher :=
  let sorted := (goSortFunc goCmpSubscription ((d.subscriptions event).toArray.push sub)).toList
  { d with subscriptions := updateMap d.subscriptions event sorted }

/-- A plain subscription used for the ordering experiments: only the plugin
id and priority matter to `Subscribe`'s sort. -/
def c3Sub (name : String) (prio : Int) : Subscription :=
  { pluginID := name, priority := prio, handler := fun _ => .ok none, ignoreCancelled := false }

/-- The C3 failing input: thirteen `player_chat` subscriptions at priority 0
(p01 … p13, in insertion order), then one at priority −1 (p14). -/
def c3Input : List (String × Int) :=
  [("p01", 0), ("p02", 0), ("p03", 0), ("p04", 0), ("p05", 0), ("p06", 0), ("p07", 0),
   ("p08", 0), ("p09", 0), ("p10", 0), ("p11", 0), ("p12", 0), ("p13", 0), ("p14", -1)]

/-- The dispatcher after the fourteen `Subscribe` calls of `c3Input`. -/
def c3Dispatcher : Dispatcher :=
  c3Input.foldl (fun d p => d.subscribe "player_chat" (c3Sub p.1 p.2)) Dispatcher.new

end DragonflyWasm

namespace DragonflyWasm

/-! ## Basic lemmas about the dispatch loop -/

theorem dispatchLoop_append (data : Bytes) (r : DispatchResult)
    (xs ys : List Subscription) :
    dispatchLoop data r (xs ++ ys) = dispatchLoop data (dispatchLoop data r xs) ys := by
  induction xs generalizing r with
  | nil => rfl
  | cons x xs ih => simp [dispatchLoop, ih]

theorem dispatchInvoked_length (data : Bytes) (r : DispatchResult)
    (subs : List Subscription) :
    (dispatchInvoked data r subs).length = subs.length := by
  induction subs generalizing r with
  | nil => rfl
  | cons x xs ih => simp [dispatchInvoked, ih]

/-- The skip guard read off from `dispatchStep`: the handler runs exactly
when not (`result.Cancelled && sub.IgnoreCancelled`). -/
theorem dispatchStep_snd (data : Bytes) (r : DispatchResult) (sub : Subscription) :
    (dispatchStep data r sub).2 = !(r.cancelled && sub.ignoreCancelled) := by
  cases hc : r.cancelled && sub.ignoreCancelled with
  | true => simp [dispatchStep, hc]
  | false =>
    simp only [dispatchStep, hc, Bool.false_eq_true, if_false, Bool.not_false]
    rcases sub.handler data with _ | hres
    · rfl
    · rcases hres with _ | er <;> rfl

/-- The invocation flag at position `i` is decided by the result accumulated
over the first `i` subscriptions. -/
theorem dispatchInvoked_get (data : Bytes) (r : DispatchResult)
    (subs : List Subscription) (i : Nat) (hi : i < subs.length) :
    (dispatchInvoked data r subs).get
        ⟨i, by rw [dispatchInvoked_length]; exact hi⟩ =
      !((dispatchLoop data r (subs.take i)).cancelled &&
        (subs.get ⟨i, hi⟩).ignoreCancelled) := by
  induction subs generalizing r i with
  | nil => exact absurd hi (by simp)
  | cons x xs ih =>
    cases i with
    | zero =>
      simp only [dispatchInvoked, dispatchLoop, List.take, List.get]
      exact dispatchStep_snd data r x
    | succ n =>
      simp only [dispatchInvoked, dispatchLoop, List.take, List.get]
      exact ih (dispatchStep data r x).1 n (by simpa using hi)

/-!
## Claim C1 — which handlers Dispatch invokes
-/

/-- C1: for any dispatch over any subscription list, a handler at position `i`
is invoked exactly when, at the moment it is considered (i.e. after the first
`i` subscriptions were folded), the accumulated result is not yet cancelled or
its `ignore_cancelled` flag is false; and the dispatch result is exactly the
fold that drives those invocation flags. -/
theorem c1_dispatch_invokes_iff (d : Dispatcher) (event : EventType) (data : Bytes)
    (elapsed : Nat) (i : Nat) (hi : i < (d.subscriptions event).length) :
    ((dispatchInvoked data dispatchInit (d.subscriptions event)).get
        ⟨i, by rw [dispatchInvoked_length]; exact hi⟩ = true ↔
      (¬ (dispatchLoop data dispatchInit ((d.subscriptions event).take i)).cancelled = true ∨
        ((d.subscriptions event).get ⟨i, hi⟩).ignoreCancelled = false)) ∧
    ((d.subscriptions event).length ≠ 0 →
      (d.dispatch event data elapsed).1 =
        { dispatchLoop data dispatchInit (d.subscriptions event) with duration := elapsed }) := by
  constructor
  · rw [dispatchInvoked_get]
    cases hc : (dispatchLoop data dispatchInit ((d.subscriptions event).take i)).cancelled <;>
      cases hg : ((d.subscriptions event).get ⟨i, hi⟩).ignoreCancelled <;> simp [hc, hg]
  · intro hne
    simp only [Dispatcher.dispatch, if_neg hne]

/-- Witness for C1: in the S4 state, the second handler (index 1,
`ignore_cancelled=false`) is invoked even though the accumulated result is
already cancelled. -/
theorem c1_dispatch_invokes_iff_witness :
    ((dispatchInvoked [] dispatchInit (s4Dispatcher.subscriptions "player_chat")).get
        ⟨1, by rw [dispatchInvoked_length]; decide⟩ = true ↔
      (¬ (dispatchLoop [] dispatchInit
            ((s4Dispatcher.subscriptions "player_chat").take 1)).cancelled = true ∨
        ((s4Dispatcher.subscriptions "player_chat").get ⟨1, by decide⟩).ignoreCancelled
          = false)) ∧
    ((s4Dispatcher.subscriptions "player_chat").length ≠ 0 →
      (s4Dispatcher.dispatch "player_chat" [] 0).1 =
        { dispatchLoop [] dispatchInit (s4Dispatcher.subscriptions "player_chat") with
            duration := 0 }) :=
  c1_dispatch_invokes_iff s4Dispatcher "player_chat" [] 0 1 (by decide)

/-!
## Claim C2 — scenario S4
-/

/-- C2 counterexample: with S4's literal input — `H1(priority=0)` returning
`cancelled=true` and `H2(priority=100, ignore_cancelled=false)` — `Dispatch`
runs *both* handlers: the returned result has `handlers = 2`, not `1` as the
claim states (the skip guard only fires when `ignore_cancelled` is true). -/
theorem c2_counterexample :
    (s4Dispatcher.dispatch "player_chat" [] 0).1.cancelled = true ∧
    (s4Dispatcher.dispatch "player_chat" [] 0).1.handlers = 2 ∧
    ¬ (s4Dispatcher.dispatch "player_chat" [] 0).1.handlers = 1 := by
  refine ⟨rfl, rfl, ?_⟩
  intro h
  have h2 : (s4Dispatcher.dispatch "player_chat" [] 0).1.handlers = 2 := rfl
  exact absurd (h2.symm.trans h) (by decide)

/-- C2 amended: on S4's input, Dispatch runs H1 and then also H2 (because
H2's `ignore_cancelled` is false); result `cancelled=true`, `handlers=2`,
and the invocation trace is `[true, true]`.  H2 would be skipped only if its
`ignore_cancelled` flag were true. -/
theorem c2_dispatch_s4_amended :
    (s4Dispatcher.dispatch "player_chat" [] 0).1.cancelled = true ∧
    (s4Dispatcher.dispatch "player_chat" [] 0).1.handlers = 2 ∧
    dispatchInvoked [] dispatchInit (s4Dispatcher.subscriptions "player_chat")
      = [true, true] ∧
    dispatchInvoked [] dispatchInit
        [s4H1, { s4H2 with ignoreCancelled := true }] = [true, false] := by
  exact ⟨rfl, rfl, rfl, rfl⟩

/-!
## Claim C8 — cancelled byte parsing
-/

/-- C8: both copies of `parseEventResult` set `Cancelled = true` exactly when
the guest output is non-empty with first byte 1; anything else (empty output,
or another first byte such as 2) parses to `Cancelled = false`, and parsing
is a total function (no output shape fails). -/
theorem c8_parse_cancelled_iff (data : Bytes) :
    ((parseEventResultMgr data).cancelled = true ↔ data.head? = some 1) ∧
    (parseEventResultRt data).cancelled = (parseEventResultMgr data).cancelled ∧
    (parseEventResultMgr (2 :: data.tail)).cancelled = false := by
  refine ⟨?_, ?_, rfl⟩
  · cases data with
    | nil => simp [parseEventResultMgr]
    | cons b t => simp [parseEventResultMgr]
  · cases data <;> rfl

/-!
## Claim C5 — the modifications tail and the merge
-/

/-- C5 counterexample: a guest output whose tail is a well-formed one-entry
table `{message:"world"}` still parses to an *empty* modifications map — the
bytes after the cancelled byte are ignored, not parsed. -/
theorem c5_counterexample :
    (parseEventResultMgr (1 :: specEncodeTable [("message", "world")])).cancelled = true ∧
    (parseEventResultMgr (1 :: specEncodeTable [("message", "world")])).modifications
        "message" = none ∧
    (parseEventResultRt (1 :: specEncodeTable [("message", "world")])).modifications
        "message" = none :=
  ⟨rfl, rfl, rfl⟩

/-- C5 amended: every byte after the first is ignored — both parsers always
return an empty modifications table — while the dispatcher itself does merge
the modification maps returned by handlers with later (higher-priority)
handlers overwriting earlier ones: in the S6 configuration, where the handlers
return `{message:"hello"}` and `{message:"world"}` directly, the final merged
table maps `message` to `"world"`. -/
theorem c5_parse_ignores_tail_merge_wins :
    (∀ (data : Bytes) (k : String), (parseEventResultMgr data).modifications k = none) ∧
    (∀ (data : Bytes) (k : String), (parseEventResultRt data).modifications k = none) ∧
    (s6Dispatcher.dispatch "player_chat" [] 0).1.getMod "message" = some "world" ∧
    (s6Dispatcher.dispatch "player_chat" [] 0).1.handlers = 2 := by
  refine ⟨fun _ _ => rfl, fun _ _ => rfl, ?_, rfl⟩
  rfl

/-!
## Claim C9 — the no-subscriber fast path
-/

/-- C9: when the event has no subscriptions, `Dispatch` returns the zero
`DispatchResult` (0 handlers, not cancelled, `nil` modifications, zero
duration) and the dispatcher — including its `eventCount`, `cancelCount`
and `dispatchTimes` maps — is left entirely unchanged; the counters move
only on the path that saw at least one subscription, where `eventCount`
increments by one. -/
theorem c9_empty_dispatch_frame (d : Dispatcher) (event : EventType) (data : Bytes)
    (elapsed : Nat) :
    (d.subscriptions event = [] →
      d.dispatch event data elapsed = (DispatchResult.zero, d)) ∧
    (DispatchResult.zero.handlers = 0 ∧ DispatchResult.zero.cancelled = false ∧
      DispatchResult.zero.modifications = none ∧ DispatchResult.zero.duration = 0) ∧
    (d.subscriptions event ≠ [] →
      (d.dispatch event data elapsed).2.eventCount event = d.eventCount event + 1) := by
  refine ⟨?_, ⟨rfl, rfl, rfl, rfl⟩, ?_⟩
  · intro hempty
    simp [Dispatcher.dispatch, hempty]
  · intro hne
    have hlen : ¬ (d.subscriptions event).length = 0 := by
      simpa [List.length_eq_zero] using hne
    simp [Dispatcher.dispatch, if_neg hlen, updateMap]

/-- Witness for C9: a fresh dispatcher has no `player_chat` subscribers, and
dispatching leaves it untouched with the zero result. -/
theorem c9_empty_dispatch_frame_witness :
    Dispatcher.new.dispatch "player_chat" [] 5 = (DispatchResult.zero, Dispatcher.new) :=
  (c9_empty_dispatch_frame Dispatcher.new "player_chat" [] 5).1 rfl

/-!
## Claim C7 — storage round trip
-/

/-- C7: on both backends, `set(p,k,v)` followed by `get(p,k)` returns
`(v, present)`, and `get(p,k)` directly after a `delete(p,k)` (from any
state, in particular after the set) reports absent. -/
theorem c7_storage_roundtrip (p k : String) (v : Bytes)
    (m : MemoryStorage) (f : FileStorage) :
    ((m.set p k v).get p k = (v, true)) ∧
    (((m.delete p k).get p k).2 = false) ∧
    ((f.set p k v).get p k = (v, true)) ∧
    (((f.delete p k).get p k).2 = false) := by
  refine ⟨?_, ?_, ?_, ?_⟩
  · simp [MemoryStorage.set, MemoryStorage.get]
  · cases h : m.data p with
    | none => simp [MemoryStorage.delete, h, MemoryStorage.get]
    | some pluginData => simp [MemoryStorage.delete, h, MemoryStorage.get]
  · simp [FileStorage.set, FileStorage.get]
  · cases h : f.data p with
    | none => simp [FileStorage.delete, h, FileStorage.get]
    | some pluginData => simp [FileStorage.delete, h, FileStorage.get]

/-- No pool operation changes the fixed `size`. -/
theorem Pool.step_size (p : Pool) (op : PoolOp) : (p.step op).size = p.size := by
  cases op with
  | acquire =>
    unfold Pool.step Pool.acquire
    by_cases hc : p.closed
    · simp [hc]
    · cases hb : p.buffer <;> simp [hc, hb]
  | acquireWait =>
    unfold Pool.step Pool.acquireWait
    by_cases hc : p.closed
    · simp [hc]
    · cases hb : p.buffer <;> simp [hc, hb]
  | release inst =>
    unfold Pool.step Pool.release
    by_cases hc : p.closed
    · simp [hc]
    · by_cases hlt : p.buffer.length < p.size <;> simp [hc, hlt]
  | close =>
    unfold Pool.step Pool.close
    by_cases hc : p.closed <;> simp [hc]

/-- Every pool operation preserves `available ≤ size`. -/
theorem Pool.step_available_le (p : Pool) (op : PoolOp)
    (hinv : p.available ≤ p.size) : (p.step op).available ≤ p.size := by
  cases op with
  | acquire =>
    unfold Pool.step Pool.acquire
    by_cases hc : p.closed
    · simpa [hc, Pool.available] using hinv
    · cases hb : p.buffer with
      | nil =>
        simp only [hc, Bool.false_eq_true, if_false, hb]
        exact hinv
      | cons inst rest =>
        have : p.buffer.length = rest.length + 1 := by simp [hb]
        simp only [hc, Bool.false_eq_true, if_false, hb, Pool.available]
        simp only [Pool.available] at hinv
        omega
  | acquireWait =>
    unfold Pool.step Pool.acquireWait
    by_cases hc : p.closed
    · simpa [hc, Pool.available] using hinv
    · cases hb : p.buffer with
      | nil =>
        simp only [hc, Bool.false_eq_true, if_false, hb]
        exact hinv
      | cons inst rest =>
        have : p.buffer.length = rest.length + 1 := by simp [hb]
        simp only [hc, Bool.false_eq_true, if_false, hb, Pool.available]
        simp only [Pool.available] at hinv
        omega
  | release inst =>
    unfold Pool.step Pool.release
    by_cases hc : p.closed
    · simpa [hc, Pool.available] using hinv
    · by_cases hlt : p.buffer.length < p.size
      · simp only [hc, Bool.false_eq_true, if_false, hlt, if_true, Pool.available]
        simpa using hlt
      · simpa [hc, hlt, Pool.available] using hinv
  | close =>
    unfold Pool.step Pool.close
    by_cases hc : p.closed
    · simpa [hc, Pool.available] using hinv
    · simp [hc, Pool.available]

/-!
## Claim C10 — Release never over-fills the pool
-/

/-- C10: `Release` never blocks and never grows the pool beyond its fixed
size: a closed pool, or a buffer already holding `size` instances, destroys
the released instance instead of re-queuing it; `size` is never changed by
any operation, and `available ≤ size` is preserved by every sequence of
`Acquire`/`AcquireWait`/`Release`/`Close` — in particular it holds forever
from the freshly filled `NewPool` state. -/
theorem c10_pool_release_bounded :
    (∀ (p : Pool) (inst : Nat), p.closed = true →
      (p.release inst).state = p ∧ (p.release inst).destroyed = [inst]) ∧
    (∀ (p : Pool) (inst : Nat), p.size ≤ p.available →
      (p.release inst).state = p ∧
        ((p.release inst).destroyed = [inst] ∨ p.closed = true)) ∧
    (∀ (p : Pool) (ops : List PoolOp), (p.run ops).size = p.size) ∧
    (∀ (p : Pool) (ops : List PoolOp), p.available ≤ p.size →
      (p.run ops).available ≤ p.size) ∧
    (∀ size : Nat, (Pool.newPool size).available = size) := by
  have hrunsize : ∀ (ops : List PoolOp) (p : Pool), (p.run ops).size = p.size := by
    intro ops
    induction ops with
    | nil => intro p; rfl
    | cons op ops ih =>
      intro p
      show ((p.step op).run ops).size = p.size
      exact (ih (p.step op)).trans (Pool.step_size p op)
  have hruninv : ∀ (ops : List PoolOp) (p : Pool), p.available ≤ p.size →
      (p.run ops).available ≤ p.size := by
    intro ops
    induction ops with
    | nil => intro p hinv; exact hinv
    | cons op ops ih =>
      intro p hinv
      have h1 := Pool.step_available_le p op hinv
      have h2 := ih (p.step op) (by rw [Pool.step_size]; exact h1)
      rw [Pool.step_size p op] at h2
      show ((p.step op).run ops).available ≤ p.size
      exact h2
  refine ⟨?_, ?_, fun p ops => hrunsize ops p, fun p ops => hruninv ops p, ?_⟩
  · intro p inst hclosed
    constructor <;> simp [Pool.release, hclosed]
  · intro p inst hfull
    by_cases hclosed : p.closed
    · exact ⟨by simp [Pool.release, hclosed], Or.inr hclosed⟩
    · have hnotlt : ¬ p.buffer.length < p.size := by
        simpa [Pool.available, Nat.not_lt] using hfull
      exact ⟨by simp [Pool.release, hclosed, hnotlt], Or.inl (by
        simp [Pool.release, hclosed, hnotlt])⟩
  · intro size
    simp [Pool.newPool, Pool.available]

/-- Witness for C10: a closed pool and a full pool both destroy the released
instance, and a concrete operation sequence from `NewPool 2` keeps
`available ≤ size`. -/
theorem c10_pool_release_bounded_witness :
    (((Pool.mk 2 [0, 1] true).release 7).state = Pool.mk 2 [0, 1] true ∧
      ((Pool.mk 2 [0, 1] true).release 7).destroyed = [7]) ∧
    ((Pool.newPool 2).run
        [.release 7, .acquire, .release 8, .release 9, .close, .release 5]).available ≤
      (Pool.newPool 2).size := by
  refine ⟨c10_pool_release_bounded.1 (Pool.mk 2 [0, 1] true) 7 rfl, ?_⟩
  have h := c10_pool_release_bounded.2.2.2.1 (Pool.newPool 2)
    [.release 7, .acquire, .release 8, .release 9, .close, .release 5] (by decide)
  simpa [Pool.newPool] using h

/-!
## Claim C6 — the memory cap at instance construction
-/

/-- C6 counterexample: `runtime.NewInstance` creates its engine-level
instance with *no* memory cap — for a manifest with `max_memory_mb = 10`
(effective limit 10) the manifest it builds has no `Memory.MaxPages`, where
the claim requires a cap of `10 * 16 = 160` pages. -/
theorem c6_counterexample :
    (newInstanceMemory Config.default
        { maxMemoryMB := 10, maxExecutionMs := 0, maxFuel := 0 }).maxPages = none ∧
    ¬ (newInstanceMemory Config.default
        { maxMemoryMB := 10, maxExecutionMs := 0, maxFuel := 0 }).maxPages = some 160 :=
  ⟨rfl, by decide⟩

/-- C6 amended: the Manager's construction path (`Manager.loadPlugin`) does
cap the instance's linear memory at `max_memory_mb * 16` pages of 64 KiB —
i.e. `max_memory_mb * 1 MiB` — for every effective limit whose page count
fits `uint32`; `runtime.NewInstance`, by contrast, computes the effective
limits, discards them, and sets no memory cap at all. -/
theorem c6_memory_cap (c : Config) (l : ResourceLimits)
    (hpos : 0 ≤ (c.getEffectiveLimits l).maxMemoryMB)
    (hsmall : (c.getEffectiveLimits l).maxMemoryMB * 16 < 2 ^ 32) :
    (loadPluginMemory c l).maxPages
        = some ((c.getEffectiveLimits l).maxMemoryMB * 16).toNat ∧
    (newInstanceMemory c l).maxPages = none := by
  refine ⟨?_, rfl⟩
  have hx : (c.getEffectiveLimits l).maxMemoryMB * 16 % 2 ^ 32
      = (c.getEffectiveLimits l).maxMemoryMB * 16 :=
    Int.emod_eq_of_lt (by positivity) hsmall
  have h0 : (loadPluginMemory c l).maxPages
      = some (((c.getEffectiveLimits l).maxMemoryMB * 16 % 2 ^ 32).toNat) := rfl
  rw [h0, hx]

/-- Witness for C6 (amended): the default config with `max_memory_mb = 10`
yields `MaxPages = 160` on the Manager path and no cap on the runtime path. -/
theorem c6_memory_cap_witness :
    (loadPluginMemory Config.default
        { maxMemoryMB := 10, maxExecutionMs := 0, maxFuel := 0 }).maxPages
      = some ((Config.default.getEffectiveLimits
          { maxMemoryMB := 10, maxExecutionMs := 0, maxFuel := 0 }).maxMemoryMB * 16).toNat ∧
    (newInstanceMemory Config.default
        { maxMemoryMB := 10, maxExecutionMs := 0, maxFuel := 0 }).maxPages = none :=
  c6_memory_cap Config.default
    { maxMemoryMB := 10, maxExecutionMs := 0, maxFuel := 0 } (by decide) (by decide)

/-!
## Resolver lemmas: manifest lookup
-/

theorem manifestMap_eq_none_iff (ms : List Manifest) (x : String) :
    manifestMap ms x = none ↔ ∀ m ∈ ms, m.id ≠ x := by
  unfold manifestMap
  rw [List.find?_eq_none]
  constructor
  · intro h m hm
    have := h m (List.mem_reverse.mpr hm)
    simpa using this
  · intro h m hm
    have := h m (List.mem_reverse.mp hm)
    simpa using this

theorem manifestMap_eq_some_imp (ms : List Manifest) (x : String) (m : Manifest)
    (h : manifestMap ms x = some m) : m ∈ ms ∧ m.id = x := by
  unfold manifestMap at h
  refine ⟨List.mem_reverse.mp (List.mem_of_find?_eq_some h), ?_⟩
  have := List.find?_some h
  simpa using this

theorem manifestMap_self (ms : List Manifest)
    (hnodup : (ms.map Manifest.id).Nodup) (m : Manifest) (hm : m ∈ ms) :
    manifestMap ms m.id = some m := by
  cases h : manifestMap ms m.id with
  | none => exact absurd rfl ((manifestMap_eq_none_iff ms m.id).mp h m hm)
  | some m' =>
    obtain ⟨hm', hid⟩ := manifestMap_eq_some_imp ms m.id m' h
    have := List.inj_on_of_nodup_map hnodup hm' hm hid
    rw [this]

theorem isPresent_iff_mem (ms : List Manifest) (x : String) :
    isPresent ms x = true ↔ x ∈ ms.map Manifest.id := by
  unfold isPresent
  rw [Option.isSome_iff_exists]
  constructor
  · rintro ⟨m, hm⟩
    obtain ⟨hmem, hid⟩ := manifestMap_eq_some_imp ms x m hm
    exact List.mem_map.mpr ⟨m, hmem, hid⟩
  · rintro hx
    obtain ⟨m, hm, hid⟩ := List.mem_map.mp hx
    cases h : manifestMap ms x with
    | some m' => exact ⟨m', rfl⟩
    | none => exact absurd hid ((manifestMap_eq_none_iff ms x).mp h m hm)

/-- Edge targets only mention discovered ids. -/
theorem targetsOf_subset_ids (ms : List Manifest) (x : String) :
    ∀ t ∈ targetsOf ms x, t ∈ ms.map Manifest.id := by
  intro t ht
  unfold targetsOf at ht
  cases h : manifestMap ms x with
  | none => rw [h] at ht; simp at ht
  | some m =>
    rw [h] at ht
    unfold edgeTargets at ht
    rcases List.mem_append.mp ht with h1 | h1
    · obtain ⟨d, hd, hdid⟩ := List.mem_map.mp h1
      have := (List.mem_filter.mp hd).2
      rw [← hdid]
      exact (isPresent_iff_mem ms d.id).mp this
    · exact (isPresent_iff_mem ms t).mp (List.mem_filter.mp h1).2
/-!
## Resolver lemmas: graph building
-/

theorem count_replicate_ite (n : Nat) (a b : String) :
    (List.replicate n a).count b = if b = a then n else 0 := by
  rw [List.count_replicate]
  by_cases h : b = a
  · simp [h]
  · rw [if_neg (fun h' => h (beq_iff_eq.mp h').symm), if_neg h]

theorem addDepEdges_ok (ms : List Manifest) (mid : String) (deps : List Dependency)
    (st : GraphSt)
    (hp : ∀ d ∈ deps, d.optional = false → isPresent ms d.id = true) :
    ∃ st', addDepEdges ms mid deps st = .ok st' ∧
      (∀ x, x ≠ mid → st'.inDegree x = st.inDegree x) ∧
      (st'.inDegree mid = st.inDegree mid +
        ((deps.filter (fun d => isPresent ms d.id)).length : Int)) ∧
      (∀ b, st'.dependents b = st.dependents b ++
        List.replicate
          (((deps.filter (fun d => isPresent ms d.id)).map Dependency.id).count b) mid) := by
  induction deps generalizing st with
  | nil => exact ⟨st, rfl, fun x _ => rfl, by simp, fun b => by simp⟩
  | cons d rest ih =>
    have hguard : (!d.optional && !isPresent ms d.id) = false := by
      cases hopt : d.optional with
      | true => simp
      | false => simp [hp d (by simp) hopt]
    by_cases hpres : isPresent ms d.id = true
    · set st1 : GraphSt :=
        { inDegree := updateMap st.inDegree mid (st.inDegree mid + 1)
          dependents := updateMap st.dependents d.id (st.dependents d.id ++ [mid]) } with hst1
      have hstep : addDepEdges ms mid (d :: rest) st = addDepEdges ms mid rest st1 := by
        simp only [addDepEdges]
        rw [hguard]
        simp only [Bool.false_eq_true, if_false]
        rw [if_pos hpres]
      obtain ⟨st', hok, hother, hmid, hdep⟩ :=
        ih st1 (fun d' hd' => hp d' (by simp [hd']))
      refine ⟨st', hstep.trans hok, ?_, ?_, ?_⟩
      · intro x hx
        rw [hother x hx, hst1]
        simp [updateMap, hx]
      · rw [hmid, hst1]
        simp only [updateMap, if_pos rfl]
        rw [List.filter_cons_of_pos (by simp [hpres])]
        push_cast [List.length_cons]
        ring
      · intro b
        rw [hdep b, hst1]
        simp only [updateMap]
        rw [List.filter_cons_of_pos (by simp [hpres]), List.map_cons, List.count_cons]
        by_cases hb : b = d.id
        · rw [if_pos hb, hb]
          simp only [beq_self_eq_true, if_true]
          rw [List.append_assoc]
          congr 1
        · rw [if_neg hb]
          have hbeq : (d.id == b) = false := by
            simp only [beq_eq_false_iff_ne, ne_eq]
            exact fun h' => hb h'.symm
          simp [hbeq]
    · have hpres' : isPresent ms d.id = false := by
        cases h : isPresent ms d.id
        · rfl
        · exact absurd h hpres
      have hstep : addDepEdges ms mid (d :: rest) st = addDepEdges ms mid rest st := by
        simp only [addDepEdges]
        rw [hguard]
        simp only [Bool.false_eq_true, if_false]
        rw [if_neg (by simp [hpres'])]
      obtain ⟨st', hok, hother, hmid, hdep⟩ :=
        ih st (fun d' hd' => hp d' (by simp [hd']))
      refine ⟨st', hstep.trans hok, hother, ?_, ?_⟩
      · rw [hmid, List.filter_cons_of_neg (by simp [hpres'])]
      · intro b
        rw [hdep b, List.filter_cons_of_neg (by simp [hpres'])]

theorem addLoadAfterEdges_effect (ms : List Manifest) (mid : String)
    (las : List String) (st : GraphSt) :
    (∀ x, x ≠ mid → (addLoadAfterEdges ms mid las st).inDegree x = st.inDegree x) ∧
    ((addLoadAfterEdges ms mid las st).inDegree mid = st.inDegree mid +
      ((las.filter (fun a => isPresent ms a)).length : Int)) ∧
    (∀ b, (addLoadAfterEdges ms mid las st).dependents b = st.dependents b ++
      List.replicate ((las.filter (fun a => isPresent ms a)).count b) mid) := by
  induction las generalizing st with
  | nil =>
    exact ⟨fun x _ => rfl, by simp [addLoadAfterEdges], fun b => by simp [addLoadAfterEdges]⟩
  | cons a rest ih =>
    by_cases hpres : isPresent ms a = true
    · set st1 : GraphSt :=
        { inDegree := updateMap st.inDegree mid (st.inDegree mid + 1)
          dependents := updateMap st.dependents a (st.dependents a ++ [mid]) } with hst1
      have hstep : addLoadAfterEdges ms mid (a :: rest) st = addLoadAfterEdges ms mid rest st1 := by
        simp only [addLoadAfterEdges]
        rw [if_pos hpres]
      obtain ⟨hother, hmid, hdep⟩ := ih st1
      refine ⟨?_, ?_, ?_⟩
      · intro x hx
        rw [hstep, hother x hx, hst1]
        simp [updateMap, hx]
      · rw [hstep, hmid, hst1]
        simp only [updateMap, if_pos rfl]
        rw [List.filter_cons_of_pos (by simp [hpres])]
        push_cast [List.length_cons]
        ring
      · intro b
        rw [hstep, hdep b, hst1]
        simp only [updateMap]
        rw [List.filter_cons_of_pos (by simp [hpres]), List.count_cons]
        by_cases hb : b = a
        · rw [if_pos hb, hb]
          simp only [beq_self_eq_true, if_true]
          rw [List.append_assoc]
          congr 1
        · rw [if_neg hb]
          have hbeq : (a == b) = false := by
            simp only [beq_eq_false_iff_ne, ne_eq]
            exact fun h' => hb h'.symm
          simp [hbeq]
    · have hpres' : isPresent ms a = false := by
        cases h : isPresent ms a
        · rfl
        · exact absurd h hpres
      have hstep : addLoadAfterEdges ms mid (a :: rest) st = addLoadAfterEdges ms mid rest st := by
        simp only [addLoadAfterEdges]
        rw [if_neg (by simp [hpres'])]
      obtain ⟨hother, hmid, hdep⟩ := ih st
      refine ⟨fun x hx => by rw [hstep]; exact hother x hx, ?_, ?_⟩
      · rw [hstep, hmid, List.filter_cons_of_neg (by simp [hpres'])]
      · intro b
        rw [hstep, hdep b, List.filter_cons_of_neg (by simp [hpres'])]

theorem filter_id_eq (ms : List Manifest) (hnodup : (ms.map Manifest.id).Nodup)
    (m : Manifest) (hm : m ∈ ms) : ms.filter (fun m' => m'.id = m.id) = [m] := by
  induction ms with
  | nil => cases hm
  | cons m0 rest ih =>
    rw [List.map_cons, List.nodup_cons] at hnodup
    rcases List.mem_cons.mp hm with h0 | h0
    · subst h0
      rw [List.filter_cons_of_pos (by simp)]
      have hrest : rest.filter (fun m' => m'.id = m.id) = [] :=
        List.filter_eq_nil_iff.mpr (fun m' hm' => by
          simp only [decide_eq_true_eq]
          intro heq
          exact hnodup.1 (heq ▸ List.mem_map_of_mem Manifest.id hm'))
      rw [hrest]
    · have hne : m0.id ≠ m.id := fun h =>
        hnodup.1 (h ▸ List.mem_map_of_mem Manifest.id h0)
      rw [List.filter_cons_of_neg (by simp [hne])]
      exact ih hnodup.2 h0

theorem buildGraph_ok (ms list : List Manifest) (st : GraphSt)
    (hp : ∀ m ∈ list, ∀ d ∈ m.dependencies, d.optional = false → isPresent ms d.id = true) :
    ∃ st', buildGraph ms list st = .ok st' ∧
      (∀ x, st'.inDegree x = st.inDegree x + degContrib ms list x) ∧
      (∀ b, st'.dependents b = st.dependents b ++ depContrib ms list b) := by
  induction list generalizing st with
  | nil => exact ⟨st, rfl, fun x => by simp [degContrib], fun b => by simp [depContrib]⟩
  | cons m rest ih =>
    obtain ⟨st1, hok1, hother1, hmid1, hdep1⟩ :=
      addDepEdges_ok ms m.id m.dependencies st (hp m (by simp))
    obtain ⟨hother2, hmid2, hdep2⟩ := addLoadAfterEdges_effect ms m.id m.loadAfter st1
    obtain ⟨st', hok, hdeg, hdepf⟩ :=
      ih (addLoadAfterEdges ms m.id m.loadAfter st1) (fun m' hm' => hp m' (by simp [hm']))
    refine ⟨st', ?_, ?_, ?_⟩
    · simp only [buildGraph, hok1]
      exact hok
    · intro x
      rw [hdeg x]
      by_cases hx : x = m.id
      · subst hx
        rw [hmid2, hmid1]
        unfold degContrib
        rw [List.filter_cons_of_pos (by simp)]
        simp only [List.map_cons, List.sum_cons]
        unfold edgeTargets
        push_cast [List.length_append, List.length_map]
        ring
      · rw [hother2 x hx, hother1 x hx]
        unfold degContrib
        rw [List.filter_cons_of_neg (by simpa using fun h => hx h.symm)]
    · intro b
      rw [hdepf b, hdep2 b, hdep1 b]
      unfold depContrib
      simp only [List.map_cons, List.flatten_cons]
      unfold edgeTargets
      rw [List.count_append, List.replicate_add]
      simp [List.append_assoc]

theorem degContrib_eq (ms : List Manifest) (hnodup : (ms.map Manifest.id).Nodup)
    (x : String) : degContrib ms ms x = ((targetsOf ms x).length : Int) := by
  cases h : manifestMap ms x with
  | none =>
    have hall := (manifestMap_eq_none_iff ms x).mp h
    unfold degContrib
    rw [List.filter_eq_nil_iff.mpr (fun m hm => by simp [hall m hm])]
    simp [targetsOf, h]
  | some m =>
    obtain ⟨hm, hid⟩ := manifestMap_eq_some_imp ms x m h
    unfold degContrib
    rw [← hid, filter_id_eq ms hnodup m hm]
    simp [targetsOf, h, hid]

theorem depContrib_count (ms list : List Manifest) (b x : String) :
    (depContrib ms list b).count x =
      ((list.filter (fun m => m.id = x)).map (fun m => (edgeTargets ms m).count b)).sum := by
  induction list with
  | nil => simp [depContrib]
  | cons m rest ih =>
    unfold depContrib at ih ⊢
    simp only [List.map_cons, List.flatten_cons, List.count_append, ih]
    rw [count_replicate_ite]
    by_cases hx : x = m.id
    · rw [if_pos hx, List.filter_cons_of_pos (by simp [hx.symm])]
      simp
    · rw [if_neg hx, List.filter_cons_of_neg (by simpa using fun h => hx h.symm)]
      simp

theorem depContrib_count_eq (ms : List Manifest) (hnodup : (ms.map Manifest.id).Nodup)
    (b x : String) : (depContrib ms ms b).count x = (targetsOf ms x).count b := by
  rw [depContrib_count]
  cases h : manifestMap ms x with
  | none =>
    have hall := (manifestMap_eq_none_iff ms x).mp h
    rw [List.filter_eq_nil_iff.mpr (fun m hm => by simp [hall m hm])]
    simp [targetsOf, h]
  | some m =>
    obtain ⟨hm, hid⟩ := manifestMap_eq_some_imp ms x m h
    rw [← hid, filter_id_eq ms hnodup m hm]
    simp [targetsOf, h, hid]

theorem depContrib_mem (ms list : List Manifest) (b x : String)
    (hx : x ∈ depContrib ms list b) : x ∈ list.map Manifest.id := by
  unfold depContrib at hx
  obtain ⟨l, hl, hxl⟩ := List.mem_flatten.mp hx
  obtain ⟨m, hm, rfl⟩ := List.mem_map.mp hl
  exact List.mem_map.mpr ⟨m, hm, (List.eq_of_mem_replicate hxl).symm ▸ rfl⟩

/-- Characterization of the graph state built by `sortByDependencies`. -/
theorem buildGraph_char (ms : List Manifest)
    (hnodup : (ms.map Manifest.id).Nodup)
    (hp : ∀ m ∈ ms, ∀ d ∈ m.dependencies, d.optional = false → isPresent ms d.id = true) :
    ∃ st, buildGraph ms ms ⟨fun _ => 0, fun _ => []⟩ = .ok st ∧
      (∀ x, st.inDegree x = ((targetsOf ms x).length : Int)) ∧
      (∀ b x, (st.dependents b).count x = (targetsOf ms x).count b) ∧
      (∀ b x, x ∈ st.dependents b → x ∈ ms.map Manifest.id) := by
  obtain ⟨st, hok, hdeg, hdep⟩ := buildGraph_ok ms ms ⟨fun _ => 0, fun _ => []⟩ hp
  refine ⟨st, hok, ?_, ?_, ?_⟩
  · intro x
    rw [hdeg x, ← degContrib_eq ms hnodup x]
    simp
  · intro b x
    rw [hdep b]
    simpa using depContrib_count_eq ms hnodup b x
  · intro b x hx
    rw [hdep b] at hx
    simp only [List.nil_append] at hx
    exact depContrib_mem ms ms b x hx
/-!
## Resolver lemmas: the dependents pass
-/

theorem updateMap_self {α : Type} (m : String → α) (k : String) (v : α) :
    updateMap m k v k = v := by simp [updateMap]

theorem updateMap_ne {α : Type} (m : String → α) (k : String) (v : α)
    (x : String) (h : x ≠ k) : updateMap m k v x = m x := by simp [updateMap, h]

theorem count_cons_self_int (d : String) (l : List String) :
    (((d :: l).count d : Nat) : Int) = (l.count d : Int) + 1 := by
  simp [List.count_cons]

theorem count_cons_ne_int (d x : String) (l : List String) (hx : x ≠ d) :
    (((d :: l).count x : Nat) : Int) = (l.count x : Int) := by
  have hbeq : (d == x) = false := by
    simp only [beq_eq_false_iff_ne, ne_eq]
    exact fun h => hx h.symm
  simp [List.count_cons, hbeq]

theorem count_cons_ne_nat (d x : String) (l : List String) (hx : x ≠ d) :
    (d :: l).count x = l.count x := by
  have h := count_cons_ne_int d x l hx
  exact_mod_cast h

theorem sortStrings_perm (l : List String) : List.Perm (sortStrings l) l :=
  List.perm_insertionSort _ l

theorem sortStrings_sorted (l : List String) : List.Sorted (· ≤ ·) (sortStrings l) :=
  List.sorted_insertionSort _ l

/-- The decremented-counts hypothesis propagates to the tail of the pass. -/
theorem count_le_updateMap (d : String) (rest : List String) (deg : String → Int)
    (hge : ∀ e, ((d :: rest).count e : Int) ≤ deg e) :
    ∀ e, (rest.count e : Int) ≤ updateMap deg d (deg d - 1) e := by
  intro e
  by_cases he : e = d
  · subst he
    have h1 := hge e
    rw [count_cons_self_int] at h1
    rw [updateMap_self]
    omega
  · have h1 := hge e
    rw [count_cons_ne_int d e rest he] at h1
    rw [updateMap_ne _ _ _ _ he]
    exact h1

theorem processDependents_fst (L : List String) (deg : String → Int)
    (queue : List String) (x : String) :
    (processDependents deg queue L).1 x = deg x - (L.count x : Int) := by
  induction L generalizing deg queue with
  | nil => simp [processDependents]
  | cons d rest ih =>
    simp only [processDependents]
    rw [ih]
    by_cases hx : x = d
    · subst hx
      rw [updateMap_self, count_cons_self_int]
      ring
    · rw [updateMap_ne _ _ _ _ hx, count_cons_ne_int d x rest hx]

theorem processDependents_snd_perm (L : List String) (deg : String → Int)
    (queue : List String) :
    List.Perm (processDependents deg queue L).2 (queue ++ pushedIds deg L) := by
  induction L generalizing deg queue with
  | nil => simp [processDependents, pushedIds]
  | cons d rest ih =>
    simp only [processDependents, pushedIds]
    by_cases h0 : updateMap deg d (deg d - 1) d = 0
    · rw [if_pos h0, if_pos h0]
      refine (ih _ _).trans ?_
      refine ((sortStrings_perm (queue ++ [d])).append_right _).trans ?_
      rw [List.append_assoc]
    · rw [if_neg h0, if_neg h0]
      refine (ih _ _).trans ?_
      rw [List.nil_append]

theorem processDependents_snd_sorted (L : List String) (deg : String → Int)
    (queue : List String) (hq : List.Sorted (· ≤ ·) queue) :
    List.Sorted (· ≤ ·) (processDependents deg queue L).2 := by
  induction L generalizing deg queue with
  | nil => exact hq
  | cons d rest ih =>
    simp only [processDependents]
    by_cases h0 : updateMap deg d (deg d - 1) d = 0
    · rw [if_pos h0]
      exact ih _ _ (sortStrings_sorted _)
    · rw [if_neg h0]
      exact ih _ _ hq

theorem pushedIds_mem_iff (L : List String) (deg : String → Int)
    (hge : ∀ e, (L.count e : Int) ≤ deg e) (x : String) :
    x ∈ pushedIds deg L ↔ deg x = (L.count x : Int) ∧ 1 ≤ L.count x := by
  induction L generalizing deg with
  | nil => simp [pushedIds]
  | cons d rest ih =>
    have hge' := count_le_updateMap d rest deg hge
    simp only [pushedIds, List.mem_append]
    rw [ih _ hge', updateMap_self]
    by_cases hx : x = d
    · subst hx
      rw [updateMap_self, count_cons_self_int]
      have h1 := hge x
      rw [count_cons_self_int] at h1
      have h2 : 1 ≤ (x :: rest).count x := by
        have : ((x :: rest).count x : Int) = (rest.count x : Int) + 1 :=
          count_cons_self_int x rest
        omega
      by_cases h0 : deg x - 1 = 0
      · rw [if_pos h0]
        constructor
        · intro _
          exact ⟨by omega, h2⟩
        · intro _
          exact Or.inl (by simp)
      · rw [if_neg h0]
        simp only [List.not_mem_nil, false_or]
        constructor
        · rintro ⟨he, hc1⟩
          exact ⟨by omega, h2⟩
        · rintro ⟨he, _⟩
          exact ⟨by omega, by omega⟩
    · rw [updateMap_ne _ _ _ _ hx, count_cons_ne_nat d x rest hx]
      by_cases h0 : deg d - 1 = 0
      · rw [if_pos h0]
        simp only [List.mem_singleton, hx, false_or]
      · rw [if_neg h0]
        simp only [List.not_mem_nil, false_or]

theorem pushedIds_nodup (L : List String) (deg : String → Int)
    (hge : ∀ e, (L.count e : Int) ≤ deg e) : (pushedIds deg L).Nodup := by
  induction L generalizing deg with
  | nil => simp [pushedIds]
  | cons d rest ih =>
    have hge' := count_le_updateMap d rest deg hge
    simp only [pushedIds]
    rw [updateMap_self]
    by_cases h0 : deg d - 1 = 0
    · rw [if_pos h0]
      simp only [List.singleton_append, List.nodup_cons]
      refine ⟨?_, ih _ hge'⟩
      rw [pushedIds_mem_iff rest _ hge' d, updateMap_self]
      rintro ⟨he, hc1⟩
      omega
    · rw [if_neg h0]
      simp only [List.nil_append]
      exact ih _ hge'

/-!
## Resolver lemmas: remaining degrees and the ready queue
-/

theorem specDeg_nonneg (ms : List Manifest) (done : List String) (x : String) :
    0 ≤ specDeg ms done x := by
  unfold specDeg
  positivity

theorem specDeg_eq_zero_iff (ms : List Manifest) (done : List String) (x : String) :
    specDeg ms done x = 0 ↔ ∀ t ∈ targetsOf ms x, t ∈ done := by
  unfold specDeg
  rw [Int.natCast_eq_zero, List.length_eq_zero, List.filter_eq_nil_iff]
  constructor
  · intro h t ht
    have := h t ht
    simpa using this
  · intro h t ht
    simpa using h t ht

theorem count_le_specDeg (ms : List Manifest) (done : List String) (u : String)
    (hu : u ∉ done) (x : String) :
    ((targetsOf ms x).count u : Int) ≤ specDeg ms done x := by
  unfold specDeg
  rw [← List.countP_eq_length_filter, List.count_eq_countP]
  have h := List.countP_mono_left (l := targetsOf ms x)
    (p := (· == u)) (q := fun t => decide (t ∉ done)) ?_
  · exact_mod_cast h
  · intro t _ ht
    have htu : t = u := by simpa using ht
    subst htu
    simpa using hu

theorem specDeg_append (ms : List Manifest) (done : List String) (u : String)
    (hu : u ∉ done) (x : String) :
    specDeg ms (done ++ [u]) x = specDeg ms done x - ((targetsOf ms x).count u : Int) := by
  unfold specDeg
  induction targetsOf ms x with
  | nil => simp
  | cons t rest ih =>
    by_cases htu : t = u
    · subst htu
      have hmem : t ∈ done ++ [t] := by simp
      rw [List.filter_cons_of_neg (by
          simp only [decide_eq_true_eq]
          exact fun hcon => hcon hmem),
        List.filter_cons_of_pos (by simpa using hu),
        count_cons_self_int]
      push_cast [List.length_cons]
      omega
    · have hsplit : (t ∈ done ++ [u]) ↔ t ∈ done := by
        simp [htu]
      rw [count_cons_ne_int t u rest (fun h => htu h.symm)]
      by_cases hmem : t ∈ done
      · rw [List.filter_cons_of_neg (by
            simp only [decide_eq_true_eq]
            exact fun hcon => hcon (hsplit.mpr hmem)),
          List.filter_cons_of_neg (by
            simp only [decide_eq_true_eq]
            exact fun hcon => hcon hmem)]
        exact ih
      · rw [List.filter_cons_of_pos (by simpa using fun h => hmem (hsplit.mp h)),
          List.filter_cons_of_pos (by simpa using hmem)]
        push_cast [List.length_cons]
        omega

theorem mem_readyQueue_iff (ms : List Manifest) (done : List String) (x : String) :
    x ∈ readyQueue ms done ↔
      x ∈ ms.map Manifest.id ∧ x ∉ done ∧ specDeg ms done x = 0 := by
  unfold readyQueue
  rw [(sortStrings_perm _).mem_iff, List.mem_filter]
  rw [specDeg_eq_zero_iff]
  constructor
  · rintro ⟨hid, hcond⟩
    simp only [Bool.and_eq_true, decide_eq_true_eq, List.all_eq_true] at hcond
    exact ⟨hid, hcond.1, fun t ht => by simpa using hcond.2 t ht⟩
  · rintro ⟨hid, hdone, htgt⟩
    refine ⟨hid, ?_⟩
    simp only [Bool.and_eq_true, decide_eq_true_eq, List.all_eq_true]
    exact ⟨hdone, fun t ht => by simpa using htgt t ht⟩

theorem readyQueue_nodup (ms : List Manifest) (hnodup : (ms.map Manifest.id).Nodup)
    (done : List String) : (readyQueue ms done).Nodup := by
  unfold readyQueue
  exact ((sortStrings_perm _).nodup_iff).mpr (hnodup.filter _)

theorem readyQueue_sorted (ms : List Manifest) (done : List String) :
    List.Sorted (· ≤ ·) (readyQueue ms done) :=
  sortStrings_sorted _

/-- One iteration of the Kahn loop, seen through the reference quantities:
after popping the least ready id `u` and processing its dependents, the
degree map and queue are exactly those of `done ++ [u]`, and the invariant
is preserved. -/
theorem resolver_step (ms : List Manifest)
    (hnodup : (ms.map Manifest.id).Nodup)
    (st : GraphSt)
    (hdepcnt : ∀ b x, (st.dependents b).count x = (targetsOf ms x).count b)
    (hdepmem : ∀ b x, x ∈ st.dependents b → x ∈ ms.map Manifest.id)
    (done : List String) (hinv : ResolverInv ms done)
    (u : String) (tail : List String)
    (hq : readyQueue ms done = u :: tail) :
    (∀ x, (processDependents (fun y => specDeg ms done y) tail (st.dependents u)).1 x
        = specDeg ms (done ++ [u]) x) ∧
    (processDependents (fun y => specDeg ms done y) tail (st.dependents u)).2
        = readyQueue ms (done ++ [u]) ∧
    ResolverInv ms (done ++ [u]) := by
  obtain ⟨hnd, hsub, hclosed⟩ := hinv
  have huready : u ∈ readyQueue ms done := by rw [hq]; exact List.mem_cons_self u tail
  obtain ⟨huid, hudone, hudeg⟩ := (mem_readyQueue_iff ms done u).mp huready
  have hutgt : ∀ t ∈ targetsOf ms u, t ∈ done := (specDeg_eq_zero_iff ms done u).mp hudeg
  have hge : ∀ e, ((st.dependents u).count e : Int) ≤ (fun y => specDeg ms done y) e := by
    intro e
    show ((st.dependents u).count e : Int) ≤ specDeg ms done e
    rw [hdepcnt u e]
    exact count_le_specDeg ms done u hudone e
  have hdeg1 : ∀ x,
      (processDependents (fun y => specDeg ms done y) tail (st.dependents u)).1 x
        = specDeg ms (done ++ [u]) x := by
    intro x
    rw [processDependents_fst, hdepcnt u x, specDeg_append ms done u hudone x]
  have hqnodup := readyQueue_nodup ms hnodup done
  rw [hq, List.nodup_cons] at hqnodup
  have hunottail : u ∉ tail := hqnodup.1
  have htailnd : tail.Nodup := hqnodup.2
  have hqsorted := readyQueue_sorted ms done
  rw [hq] at hqsorted
  have htailsorted : List.Sorted (· ≤ ·) tail := hqsorted.of_cons
  have htailmem : ∀ x, x ∈ tail ↔
      (x ∈ ms.map Manifest.id ∧ x ∉ done ∧ specDeg ms done x = 0 ∧ x ≠ u) := by
    intro x
    constructor
    · intro hx
      have hx' : x ∈ readyQueue ms done := by
        rw [hq]
        exact List.mem_cons_of_mem u hx
      obtain ⟨ha, hb, hc⟩ := (mem_readyQueue_iff ms done x).mp hx'
      exact ⟨ha, hb, hc, fun h => hunottail (h ▸ hx)⟩
    · rintro ⟨ha, hb, hc, hne⟩
      have hx' : x ∈ readyQueue ms done := (mem_readyQueue_iff ms done x).mpr ⟨ha, hb, hc⟩
      rw [hq] at hx'
      rcases List.mem_cons.mp hx' with h | h
      · exact absurd h hne
      · exact h
  have hpush : ∀ x, x ∈ pushedIds (fun y => specDeg ms done y) (st.dependents u) ↔
      specDeg ms done x = ((st.dependents u).count x : Int) ∧
        1 ≤ (st.dependents u).count x :=
    fun x => pushedIds_mem_iff (st.dependents u) _ hge x
  have hpushnd := pushedIds_nodup (st.dependents u) _ hge
  have hlhs_mem : ∀ x,
      (x ∈ tail ∨ x ∈ pushedIds (fun y => specDeg ms done y) (st.dependents u)) ↔
      (x ∈ ms.map Manifest.id ∧ x ∉ done ++ [u] ∧ specDeg ms (done ++ [u]) x = 0) := by
    intro x
    constructor
    · rintro (hx | hx)
      · obtain ⟨ha, hb, hc, hne⟩ := (htailmem x).mp hx
        refine ⟨ha, by simp [hb, hne], ?_⟩
        have h1 := specDeg_append ms done u hudone x
        have h2 := specDeg_nonneg ms (done ++ [u]) x
        have h3 := count_le_specDeg ms done u hudone x
        have h4 : (0:Int) ≤ ((targetsOf ms x).count u : Int) := by positivity
        omega
      · obtain ⟨he, hc1⟩ := (hpush x).mp hx
        have hxdep : x ∈ st.dependents u := by
          rw [← List.count_pos_iff]
          omega
        have hxid := hdepmem u x hxdep
        have hu_tgt : u ∈ targetsOf ms x := by
          rw [← List.count_pos_iff, ← hdepcnt u x]
          omega
        have hxnotdone : x ∉ done := fun hxdone => hudone (hclosed x hxdone u hu_tgt)
        have hxnotu : x ≠ u := by
          intro h
          subst h
          exact hudone (hutgt x hu_tgt)
        refine ⟨hxid, by simp [hxnotdone, hxnotu], ?_⟩
        rw [specDeg_append ms done u hudone x, he, hdepcnt u x]
        ring
    · rintro ⟨hxid, hxdone', hdeg'⟩
      have hxnotu : x ≠ u := by
        intro h
        subst h
        exact hxdone' (by simp)
      have hxnotdone : x ∉ done := fun h => hxdone' (by simp [h])
      have h1 := specDeg_append ms done u hudone x
      by_cases h0 : specDeg ms done x = 0
      · exact Or.inl ((htailmem x).mpr ⟨hxid, hxnotdone, h0, hxnotu⟩)
      · refine Or.inr ((hpush x).mpr ?_)
        rw [hdepcnt u x]
        have hnn := specDeg_nonneg ms done x
        have h4 : (0:Int) ≤ ((targetsOf ms x).count u : Int) := by positivity
        constructor
        · omega
        · omega
  have hperm1 := processDependents_snd_perm (st.dependents u)
    (fun y => specDeg ms done y) tail
  have hnd_lhs :
      (tail ++ pushedIds (fun y => specDeg ms done y) (st.dependents u)).Nodup := by
    rw [List.nodup_append]
    refine ⟨htailnd, hpushnd, ?_⟩
    intro x hx1 hx2
    obtain ⟨_, _, hc, _⟩ := (htailmem x).mp hx1
    obtain ⟨he, hc1⟩ := (hpush x).mp hx2
    omega
  have hnd_rhs := readyQueue_nodup ms hnodup (done ++ [u])
  have hperm2 : List.Perm
      (tail ++ pushedIds (fun y => specDeg ms done y) (st.dependents u))
      (readyQueue ms (done ++ [u])) := by
    rw [List.perm_ext_iff_of_nodup hnd_lhs hnd_rhs]
    intro a
    rw [List.mem_append, hlhs_mem a, mem_readyQueue_iff]
  have hsorted_lhs := processDependents_snd_sorted (st.dependents u)
    (fun y => specDeg ms done y) tail htailsorted
  refine ⟨hdeg1, ?_, ?_, ?_, ?_⟩
  · exact List.eq_of_perm_of_sorted (hperm1.trans hperm2) hsorted_lhs
      (readyQueue_sorted ms (done ++ [u]))
  · rw [List.nodup_append]
    exact ⟨hnd, List.nodup_singleton u, fun a ha hb => hudone ((List.mem_singleton.mp hb) ▸ ha)⟩
  · intro x hx
    rcases List.mem_append.mp hx with h | h
    · exact hsub x h
    · exact (List.mem_singleton.mp h) ▸ huid
  · intro x hx t ht
    rcases List.mem_append.mp hx with h | h
    · exact List.mem_append_left _ (hclosed x h t ht)
    · have hxu := List.mem_singleton.mp h
      subst hxu
      exact List.mem_append_left _ (hutgt t ht)

/-!
## Resolver lemmas: the full loop
-/

theorem eraseDups_loop_eq (as bs : List String) (hnd : as.Nodup)
    (hdisj : ∀ a ∈ as, a ∉ bs) :
    List.eraseDups.loop as bs = bs.reverse ++ as := by
  induction as generalizing bs with
  | nil => simp [List.eraseDups.loop]
  | cons a as ih =>
    rw [List.nodup_cons] at hnd
    have hne : bs.elem a = false := by
      cases h : bs.elem a
      · rfl
      · exact absurd (List.elem_iff.mp h) (hdisj a (List.mem_cons_self a as))
    simp only [List.eraseDups.loop, hne]
    rw [ih (a :: bs) hnd.2 (fun b hb hmem => by
      rcases List.mem_cons.mp hmem with h | h
      · exact hnd.1 (h ▸ hb)
      · exact hdisj b (List.mem_cons_of_mem a hb) h)]
    simp

theorem eraseDups_eq_self (l : List String) (hnd : l.Nodup) : l.eraseDups = l := by
  have h := eraseDups_loop_eq l [] hnd (by simp)
  simpa [List.eraseDups] using h

/-- `specDeg` over the empty popped list is the full target count. -/
theorem specDeg_nil (ms : List Manifest) (x : String) :
    specDeg ms [] x = ((targetsOf ms x).length : Int) := by
  unfold specDeg
  simp

/-- With everything popped (no id of `ms` outside `done`), nothing is ready. -/
theorem readyQueue_of_full (ms : List Manifest) (done : List String)
    (hfull : ∀ x ∈ ms.map Manifest.id, x ∈ done) : readyQueue ms done = [] := by
  cases hq : readyQueue ms done with
  | nil => rfl
  | cons u tail =>
    have hu : u ∈ readyQueue ms done := by rw [hq]; exact List.mem_cons_self u tail
    obtain ⟨ha, hb, _⟩ := (mem_readyQueue_iff ms done u).mp hu
    exact absurd (hfull u ha) hb

/-- A non-full invariant state has a ready id (Kahn completeness on acyclic
graphs): the un-popped ids form a nonempty subset, acyclicity gives it a
source, and that source is ready. -/
theorem readyQueue_ne_nil (ms : List Manifest)
    (hnodup : (ms.map Manifest.id).Nodup) (hacyc : Acyclic ms)
    (done : List String) (hinv : ResolverInv ms done)
    (hlt : done.length < (ms.map Manifest.id).length) :
    readyQueue ms done ≠ [] := by
  obtain ⟨hnd, hsub, _⟩ := hinv
  have hx : ∃ x ∈ ms.map Manifest.id, x ∉ done := by
    by_contra hcon
    push_neg at hcon
    have hsubf : (ms.map Manifest.id).toFinset ⊆ done.toFinset := by
      intro a ha
      exact List.mem_toFinset.mpr (hcon a (List.mem_toFinset.mp ha))
    have h1 : (ms.map Manifest.id).toFinset.card = (ms.map Manifest.id).length :=
      List.toFinset_card_of_nodup hnodup
    have h2 : done.toFinset.card = done.length := List.toFinset_card_of_nodup hnd
    have := Finset.card_le_card hsubf
    omega
  obtain ⟨x0, hx0id, hx0done⟩ := hx
  have hUpow : ((ms.map Manifest.id).filter (fun id => decide (id ∉ done))).toFinset
      ∈ (ms.map Manifest.id).toFinset.powerset := by
    rw [Finset.mem_powerset]
    intro a ha
    have := List.mem_toFinset.mp ha
    exact List.mem_toFinset.mpr (List.mem_of_mem_filter this)
  have hUne : ((ms.map Manifest.id).filter (fun id => decide (id ∉ done))).toFinset.Nonempty := by
    refine ⟨x0, List.mem_toFinset.mpr ?_⟩
    rw [List.mem_filter]
    exact ⟨hx0id, by simpa using hx0done⟩
  obtain ⟨u, huU, hutgt⟩ := hacyc _ hUpow hUne
  have huU' := List.mem_filter.mp (List.mem_toFinset.mp huU)
  have huid : u ∈ ms.map Manifest.id := huU'.1
  have hudone : u ∉ done := by simpa using huU'.2
  intro hnil
  have huready : u ∈ readyQueue ms done := by
    rw [mem_readyQueue_iff]
    refine ⟨huid, hudone, (specDeg_eq_zero_iff ms done u).mpr ?_⟩
    intro t ht
    have htid : t ∈ ms.map Manifest.id := targetsOf_subset_ids ms u t ht
    have htU := hutgt t ht
    by_contra htdone
    exact htU (List.mem_toFinset.mpr (List.mem_filter.mpr ⟨htid, by simpa using htdone⟩))
  rw [hnil] at huready
  exact absurd huready (List.not_mem_nil u)

/-- The code's Kahn loop computes exactly the greedy lexicographic pop order
`specPops`, for any sufficient fuel on either side. -/
theorem kahnLoop_eq_specPops (ms : List Manifest)
    (hnodup : (ms.map Manifest.id).Nodup) (st : GraphSt)
    (hdepcnt : ∀ b x, (st.dependents b).count x = (targetsOf ms x).count b)
    (hdepmem : ∀ b x, x ∈ st.dependents b → x ∈ ms.map Manifest.id) :
    ∀ (n : Nat) (done : List String), ResolverInv ms done →
      (ms.map Manifest.id).length - done.length ≤ n →
      ∀ (fuel₁ fuel₂ : Nat), n + 1 ≤ fuel₁ → n + 1 ≤ fuel₂ →
      ∀ (acc : List String),
      kahnLoop st.dependents fuel₁ (fun y => specDeg ms done y) (readyQueue ms done) acc
        = acc ++ specPops ms fuel₂ done := by
  intro n
  induction n with
  | zero =>
    intro done hinv hn fuel₁ fuel₂ hf₁ hf₂ acc
    obtain ⟨hnd, hsub, _⟩ := hinv
    have hfull : ∀ x ∈ ms.map Manifest.id, x ∈ done := by
      intro x hxid
      by_contra hxdone
      have hsubf : done.toFinset ⊆ (ms.map Manifest.id).toFinset := by
        intro a ha
        exact List.mem_toFinset.mpr (hsub a (List.mem_toFinset.mp ha))
      have h1 : (ms.map Manifest.id).toFinset.card = (ms.map Manifest.id).length :=
        List.toFinset_card_of_nodup hnodup
      have h2 : done.toFinset.card = done.length := List.toFinset_card_of_nodup hnd
      have heq : done.toFinset = (ms.map Manifest.id).toFinset :=
        Finset.eq_of_subset_of_card_le hsubf (by omega)
      exact hxdone (List.mem_toFinset.mp (heq ▸ List.mem_toFinset.mpr hxid))
    rw [readyQueue_of_full ms done hfull]
    obtain ⟨f₁, rfl⟩ : ∃ k, fuel₁ = k + 1 := ⟨fuel₁ - 1, by omega⟩
    obtain ⟨f₂, rfl⟩ : ∃ k, fuel₂ = k + 1 := ⟨fuel₂ - 1, by omega⟩
    simp only [kahnLoop, specPops, readyQueue_of_full ms done hfull, List.append_nil]
  | succ n ih =>
    intro done hinv hn fuel₁ fuel₂ hf₁ hf₂ acc
    obtain ⟨f₁, rfl⟩ : ∃ k, fuel₁ = k + 1 := ⟨fuel₁ - 1, by omega⟩
    obtain ⟨f₂, rfl⟩ : ∃ k, fuel₂ = k + 1 := ⟨fuel₂ - 1, by omega⟩
    cases hq : readyQueue ms done with
    | nil =>
      simp only [kahnLoop, specPops, hq, List.append_nil]
    | cons u tail =>
      obtain ⟨hdeg', hq', hinv'⟩ :=
        resolver_step ms hnodup st hdepcnt hdepmem done hinv u tail hq
      have hfun : (processDependents (fun y => specDeg ms done y) tail
          (st.dependents u)).1 = fun y => specDeg ms (done ++ [u]) y :=
        funext hdeg'
      have hulen : u ∈ readyQueue ms done := by
        rw [hq]
        exact List.mem_cons_self u tail
      obtain ⟨huid, hudone, _⟩ := (mem_readyQueue_iff ms done u).mp hulen
      have hlen' : (ms.map Manifest.id).length - (done ++ [u]).length ≤ n := by
        have h1 : (done ++ [u]).length = done.length + 1 := by simp
        omega
      have hrec := ih (done ++ [u]) hinv' hlen' f₁ f₂ (by omega) (by omega) (acc ++ [u])
      simp only [kahnLoop, specPops, hq]
      rw [hfun, hq', hrec]
      simp

/-- Invariant preservation for one greedy pop, independent of the graph
state. -/
theorem resolver_inv_step (ms : List Manifest) (done : List String)
    (u : String) (tail : List String) (hinv : ResolverInv ms done)
    (hq : readyQueue ms done = u :: tail) :
    ResolverInv ms (done ++ [u]) := by
  obtain ⟨hnd, hsub, hclosed⟩ := hinv
  have huready : u ∈ readyQueue ms done := by
    rw [hq]
    exact List.mem_cons_self u tail
  obtain ⟨huid, hudone, hudeg⟩ := (mem_readyQueue_iff ms done u).mp huready
  have hutgt := (specDeg_eq_zero_iff ms done u).mp hudeg
  refine ⟨?_, ?_, ?_⟩
  · rw [List.nodup_append]
    exact ⟨hnd, List.nodup_singleton u, fun a ha hb => hudone ((List.mem_singleton.mp hb) ▸ ha)⟩
  · intro x hx
    rcases List.mem_append.mp hx with h | h
    · exact hsub x h
    · exact (List.mem_singleton.mp h) ▸ huid
  · intro x hx t ht
    rcases List.mem_append.mp hx with h | h
    · exact List.mem_append_left _ (hclosed x h t ht)
    · have hxu := List.mem_singleton.mp h
      subst hxu
      exact List.mem_append_left _ (hutgt t ht)

theorem prefixClosed_append (ms : List Manifest) (done : List String) (u : String)
    (hPC : PrefixClosed ms done) (hu : ∀ t ∈ targetsOf ms u, t ∈ done) :
    PrefixClosed ms (done ++ [u]) := by
  intro i hi t ht
  have hi' : i < done.length + 1 := by simpa using hi
  by_cases hid : i < done.length
  · have hget : (done ++ [u]).get ⟨i, hi⟩ = done.get ⟨i, hid⟩ := by
      simp only [List.get_eq_getElem]
      exact List.getElem_append_left hid
    rw [hget] at ht
    rw [List.take_append_of_le_length (by omega)]
    exact hPC i hid t ht
  · have hieq : i = done.length := by omega
    subst hieq
    have hget : (done ++ [u]).get ⟨done.length, hi⟩ = u := by
      simp only [List.get_eq_getElem]
      exact List.getElem_concat_length done u done.length rfl hi
    rw [hget] at ht
    rw [List.take_left]
    exact hu t ht

/-- Running the greedy pop order to exhaustion from an invariant state pops
every discovered id exactly once and keeps every prefix target-closed. -/
theorem specPops_props (ms : List Manifest)
    (hnodup : (ms.map Manifest.id).Nodup) (hacyc : Acyclic ms) :
    ∀ (n : Nat) (done : List String), ResolverInv ms done →
      PrefixClosed ms done →
      (ms.map Manifest.id).length - done.length ≤ n →
      ∀ fuel, n + 1 ≤ fuel →
      ResolverInv ms (done ++ specPops ms fuel done) ∧
      (done ++ specPops ms fuel done).length = (ms.map Manifest.id).length ∧
      PrefixClosed ms (done ++ specPops ms fuel done) := by
  intro n
  induction n with
  | zero =>
    intro done hinv hPC hn fuel hf
    obtain ⟨f, rfl⟩ : ∃ k, fuel = k + 1 := ⟨fuel - 1, by omega⟩
    obtain ⟨hnd, hsub, hclosed⟩ := hinv
    have hle : done.length ≤ (ms.map Manifest.id).length := by
      have hsubf : done.toFinset ⊆ (ms.map Manifest.id).toFinset := by
        intro a ha
        exact List.mem_toFinset.mpr (hsub a (List.mem_toFinset.mp ha))
      have h1 : (ms.map Manifest.id).toFinset.card = (ms.map Manifest.id).length :=
        List.toFinset_card_of_nodup hnodup
      have h2 : done.toFinset.card = done.length := List.toFinset_card_of_nodup hnd
      have := Finset.card_le_card hsubf
      omega
    have hfull : ∀ x ∈ ms.map Manifest.id, x ∈ done := by
      intro x hxid
      by_contra hxdone
      have hsubf : done.toFinset ⊆ (ms.map Manifest.id).toFinset := by
        intro a ha
        exact List.mem_toFinset.mpr (hsub a (List.mem_toFinset.mp ha))
      have h1 : (ms.map Manifest.id).toFinset.card = (ms.map Manifest.id).length :=
        List.toFinset_card_of_nodup hnodup
      have h2 : done.toFinset.card = done.length := List.toFinset_card_of_nodup hnd
      have heq : done.toFinset = (ms.map Manifest.id).toFinset :=
        Finset.eq_of_subset_of_card_le hsubf (by omega)
      exact hxdone (List.mem_toFinset.mp (heq ▸ List.mem_toFinset.mpr hxid))
    rw [show specPops ms (f + 1) done = [] from by
      simp only [specPops, readyQueue_of_full ms done hfull]]
    rw [List.append_nil]
    exact ⟨⟨hnd, hsub, hclosed⟩, by omega, hPC⟩
  | succ n ih =>
    intro done hinv hPC hn fuel hf
    obtain ⟨f, rfl⟩ : ∃ k, fuel = k + 1 := ⟨fuel - 1, by omega⟩
    cases hq : readyQueue ms done with
    | nil =>
      rw [show specPops ms (f + 1) done = [] from by simp only [specPops, hq]]
      rw [List.append_nil]
      obtain ⟨hnd, hsub, hclosed⟩ := hinv
      have hle : done.length ≤ (ms.map Manifest.id).length := by
        have hsubf : done.toFinset ⊆ (ms.map Manifest.id).toFinset := by
          intro a ha
          exact List.mem_toFinset.mpr (hsub a (List.mem_toFinset.mp ha))
        have h1 : (ms.map Manifest.id).toFinset.card = (ms.map Manifest.id).length :=
          List.toFinset_card_of_nodup hnodup
        have h2 : done.toFinset.card = done.length := List.toFinset_card_of_nodup hnd
        have := Finset.card_le_card hsubf
        omega
      have hge : ¬ done.length < (ms.map Manifest.id).length := by
        intro hlt
        exact readyQueue_ne_nil ms hnodup hacyc done ⟨hnd, hsub, hclosed⟩ hlt hq
      exact ⟨⟨hnd, hsub, hclosed⟩, by omega, hPC⟩
    | cons u tail =>
      have hinv' := resolver_inv_step ms done u tail hinv hq
      have huready : u ∈ readyQueue ms done := by
        rw [hq]
        exact List.mem_cons_self u tail
      obtain ⟨huid, hudone, hudeg⟩ := (mem_readyQueue_iff ms done u).mp huready
      have hutgt := (specDeg_eq_zero_iff ms done u).mp hudeg
      have hPC' := prefixClosed_append ms done u hPC hutgt
      have hlen' : (ms.map Manifest.id).length - (done ++ [u]).length ≤ n := by
        have : (done ++ [u]).length = done.length + 1 := by simp
        omega
      have hrec := ih (done ++ [u]) hinv' hPC' hlen' f (by omega)
      rw [show specPops ms (f + 1) done = u :: specPops ms f (done ++ [u]) from by
        simp only [specPops, hq]]
      have hassoc : done ++ u :: specPops ms f (done ++ [u])
          = (done ++ [u]) ++ specPops ms f (done ++ [u]) := by simp
      rw [hassoc]
      exact hrec

theorem indexOf_lt_of_mem_take (l : List String) (i : Nat) (B : String)
    (hB : B ∈ l.take i) : l.indexOf B < i := by
  induction l generalizing i with
  | nil => simp at hB
  | cons x xs ih =>
    cases i with
    | zero => simp at hB
    | succ j =>
      rw [List.take_succ_cons] at hB
      by_cases hbx : x = B
      · subst hbx
        rw [List.indexOf_cons_self]
        omega
      · rcases List.mem_cons.mp hB with h | h
        · exact absurd h.symm hbx
        · rw [List.indexOf_cons_ne xs hbx]
          have := ih j h
          omega

theorem prefixClosed_indexOf (ms : List Manifest) (l : List String)
    (hPC : PrefixClosed ms l) (A B : String) (hA : A ∈ l)
    (hB : B ∈ targetsOf ms A) : l.indexOf B < l.indexOf A := by
  have hiA : l.indexOf A < l.length := List.indexOf_lt_length.mpr hA
  have hget : l.get ⟨l.indexOf A, hiA⟩ = A := by
    simp only [List.get_eq_getElem]
    exact List.getElem_indexOf hiA
  have hmem := hPC (l.indexOf A) hiA B (by rw [hget]; exact hB)
  exact indexOf_lt_of_mem_take l _ B hmem

theorem mem_targetsOf_of_dep (ms : List Manifest)
    (hnodup : (ms.map Manifest.id).Nodup) (m : Manifest) (hm : m ∈ ms)
    (d : Dependency) (hd : d ∈ m.dependencies) (hpres : isPresent ms d.id = true) :
    d.id ∈ targetsOf ms m.id := by
  unfold targetsOf
  rw [manifestMap_self ms hnodup m hm]
  unfold edgeTargets
  exact List.mem_append_left _
    (List.mem_map.mpr ⟨d, List.mem_filter.mpr ⟨hd, by simpa using hpres⟩, rfl⟩)

theorem mem_targetsOf_of_loadAfter (ms : List Manifest)
    (hnodup : (ms.map Manifest.id).Nodup) (m : Manifest) (hm : m ∈ ms)
    (a : String) (ha : a ∈ m.loadAfter) (hpres : isPresent ms a = true) :
    a ∈ targetsOf ms m.id := by
  unfold targetsOf
  rw [manifestMap_self ms hnodup m hm]
  unfold edgeTargets
  exact List.mem_append_right _ (List.mem_filter.mpr ⟨ha, by simpa using hpres⟩)

/-- Looking up each popped id recovers its id list. -/
theorem filterMap_manifestMap_map_id (ms : List Manifest) (L : List String)
    (hmem : ∀ x ∈ L, x ∈ ms.map Manifest.id) :
    (L.filterMap (manifestMap ms)).map Manifest.id = L := by
  induction L with
  | nil => rfl
  | cons x xs ih =>
    have hx := hmem x (List.mem_cons_self x xs)
    have hpres : isPresent ms x = true := (isPresent_iff_mem ms x).mpr hx
    obtain ⟨m, hm⟩ := Option.isSome_iff_exists.mp hpres
    obtain ⟨_, hid⟩ := manifestMap_eq_some_imp ms x m hm
    rw [List.filterMap_cons_some hm, List.map_cons, hid,
      ih (fun y hy => hmem y (List.mem_cons_of_mem x hy))]

theorem filterMap_manifestMap_self (ms : List Manifest)
    (hnodup : (ms.map Manifest.id).Nodup) :
    (ms.map Manifest.id).filterMap (manifestMap ms) = ms := by
  rw [List.filterMap_map]
  have : ∀ l : List Manifest, (∀ m ∈ l, m ∈ ms) →
      l.filterMap (manifestMap ms ∘ Manifest.id) = l := by
    intro l
    induction l with
    | nil => intro _; rfl
    | cons m rest ih =>
      intro hl
      have hm : (manifestMap ms ∘ Manifest.id) m = some m :=
        manifestMap_self ms hnodup m (hl m (List.mem_cons_self m rest))
      rw [List.filterMap_cons_some hm, ih (fun y hy => hl y (List.mem_cons_of_mem m hy))]
  exact this ms (fun _ h => h)

/-- Full correctness of `Manager.sortByDependencies` on acyclic inputs with
distinct ids and all non-optional dependencies present: it succeeds, returns
a permutation of the input whose id sequence is exactly the greedy
lexicographic pop order, and every present edge target precedes its source. -/
theorem sortByDependencies_correct (ms : List Manifest)
    (hnodup : (ms.map Manifest.id).Nodup)
    (hdeps : ∀ m ∈ ms, ∀ d ∈ m.dependencies, d.optional = false → isPresent ms d.id = true)
    (hacyc : Acyclic ms) :
    ∃ l, sortByDependencies ms = .ok l ∧ List.Perm l ms ∧
      l.map Manifest.id = specPops ms (ms.length + 1) [] ∧
      (∀ m ∈ ms, ∀ d ∈ m.dependencies, d.optional = false →
        (l.map Manifest.id).indexOf d.id < (l.map Manifest.id).indexOf m.id) ∧
      (∀ m ∈ ms, ∀ a ∈ m.loadAfter, isPresent ms a = true →
        (l.map Manifest.id).indexOf a < (l.map Manifest.id).indexOf m.id) := by
  obtain ⟨st, hok, hdeg, hdepcnt, hdepmem⟩ := buildGraph_char ms hnodup hdeps
  have hidslen : (ms.map Manifest.id).length = ms.length := List.length_map ms Manifest.id
  have hinv0 : ResolverInv ms [] :=
    ⟨List.nodup_nil, fun x hx => absurd hx (List.not_mem_nil x),
      fun x hx => absurd hx (List.not_mem_nil x)⟩
  have hPC0 : PrefixClosed ms [] := fun i hi => absurd hi (by simp)
  have hdegfun : st.inDegree = fun y => specDeg ms [] y :=
    funext (fun x => by rw [hdeg x, specDeg_nil])
  have hq0 : sortStrings (((ms.map Manifest.id).eraseDups).filter
      (fun id => st.inDegree id = 0)) = readyQueue ms [] := by
    rw [eraseDups_eq_self (ms.map Manifest.id) hnodup]
    unfold readyQueue
    congr 1
    apply List.filter_congr
    intro x _
    cases htgt : targetsOf ms x with
    | nil => simp [hdeg x, htgt]
    | cons t rest =>
      simp [hdeg x, htgt]
      omega
  have hloop := kahnLoop_eq_specPops ms hnodup st hdepcnt hdepmem
    (ms.map Manifest.id).length [] hinv0 (by omega)
    (2 * ms.length + 2) (ms.length + 1) (by omega) (by omega) []
  obtain ⟨hinvf, hlenf, hPCf⟩ := specPops_props ms hnodup hacyc
    (ms.map Manifest.id).length [] hinv0 hPC0 (by omega) (ms.length + 1) (by omega)
  rw [List.nil_append] at hinvf hlenf hPCf
  set pops := specPops ms (ms.length + 1) [] with hpops
  obtain ⟨hpopsnd, hpopssub, _⟩ := hinvf
  have hresultmap : (pops.filterMap (manifestMap ms)).map Manifest.id = pops :=
    filterMap_manifestMap_map_id ms pops hpopssub
  have hresultlen : (pops.filterMap (manifestMap ms)).length = ms.length := by
    have := congrArg List.length hresultmap
    rw [List.length_map] at this
    omega
  have hperm : List.Perm pops (ms.map Manifest.id) := by
    rw [List.perm_ext_iff_of_nodup hpopsnd hnodup]
    have hsubf : pops.toFinset ⊆ (ms.map Manifest.id).toFinset := by
      intro a ha
      exact List.mem_toFinset.mpr (hpopssub a (List.mem_toFinset.mp ha))
    have h1 : (ms.map Manifest.id).toFinset.card = (ms.map Manifest.id).length :=
      List.toFinset_card_of_nodup hnodup
    have h2 : pops.toFinset.card = pops.length := List.toFinset_card_of_nodup hpopsnd
    have heq : pops.toFinset = (ms.map Manifest.id).toFinset :=
      Finset.eq_of_subset_of_card_le hsubf (by omega)
    intro a
    rw [← List.mem_toFinset, ← List.mem_toFinset (l := ms.map Manifest.id), heq]
  have hresultperm : List.Perm (pops.filterMap (manifestMap ms)) ms := by
    have h1 := hperm.filterMap (manifestMap ms)
    rw [filterMap_manifestMap_self ms hnodup] at h1
    exact h1
  refine ⟨pops.filterMap (manifestMap ms), ?_, hresultperm, hresultmap, ?_, ?_⟩
  · show sortByDependencies ms = _
    unfold sortByDependencies
    rw [hok]
    simp only
    rw [hq0, hdegfun, hloop, List.nil_append]
    rw [if_pos (by rw [hresultlen])]
  · intro m hm d hd hopt
    rw [hresultmap]
    have hmid : m.id ∈ pops := hperm.mem_iff.mpr (List.mem_map_of_mem Manifest.id hm)
    exact prefixClosed_indexOf ms pops hPCf m.id d.id hmid
      (mem_targetsOf_of_dep ms hnodup m hm d hd (hdeps m hm d hd hopt))
  · intro m hm a ha hpres
    rw [hresultmap]
    have hmid : m.id ∈ pops := hperm.mem_iff.mpr (List.mem_map_of_mem Manifest.id hm)
    exact prefixClosed_indexOf ms pops hPCf m.id a hmid
      (mem_targetsOf_of_loadAfter ms hnodup m hm a ha hpres)

/-!
## Claim C4 — the dependency resolver
-/

/-- C4: for every manifest set with distinct ids whose non-optional
dependencies are all present and whose present-edge graph is acyclic,
`sortByDependencies` returns a total order (a permutation of the input) in
which B precedes A for every non-optional dependency `A depends B` and every
`A load_after B` edge with B present (absent optional dependencies are
silently dropped — they simply add no edge and cause no error), and the id
sequence equals the greedy pop order that always takes the
lexicographically least ready id (the tie-break rule); in particular the S1
manifests resolve to exactly `[a.two, a.one, a.three]`. -/
theorem c4_resolver_order :
    (∀ ms : List Manifest,
      (ms.map Manifest.id).Nodup →
      (∀ m ∈ ms, ∀ d ∈ m.dependencies, d.optional = false →
        isPresent ms d.id = true) →
      Acyclic ms →
      ∃ l, sortByDependencies ms = .ok l ∧ List.Perm l ms ∧
        l.map Manifest.id = specPops ms (ms.length + 1) [] ∧
        (∀ m ∈ ms, ∀ d ∈ m.dependencies, d.optional = false →
          (l.map Manifest.id).indexOf d.id < (l.map Manifest.id).indexOf m.id) ∧
        (∀ m ∈ ms, ∀ a ∈ m.loadAfter, isPresent ms a = true →
          (l.map Manifest.id).indexOf a < (l.map Manifest.id).indexOf m.id)) ∧
    sortByDependencies s1Manifests = .ok [s1Two, s1One, s1Three] :=
  ⟨fun ms h1 h2 h3 => sortByDependencies_correct ms h1 h2 h3, by rfl⟩

/-- Witness for C4: the hypotheses hold for the S1 manifests, and the
theorem applies to them. -/
theorem c4_resolver_order_witness :
    ∃ l, sortByDependencies s1Manifests = .ok l ∧ List.Perm l s1Manifests ∧
      l.map Manifest.id = specPops s1Manifests (s1Manifests.length + 1) [] ∧
      (∀ m ∈ s1Manifests, ∀ d ∈ m.dependencies, d.optional = false →
        (l.map Manifest.id).indexOf d.id < (l.map Manifest.id).indexOf m.id) ∧
      (∀ m ∈ s1Manifests, ∀ a ∈ m.loadAfter, isPresent s1Manifests a = true →
        (l.map Manifest.id).indexOf a < (l.map Manifest.id).indexOf m.id) :=
  c4_resolver_order.1 s1Manifests (by decide) (by decide) (by decide)

/-!
## Claim C3 — priority order and tie stability of Subscribe
-/

set_option maxRecDepth 100000 in
/-- C3: on the `c3Input` sequence of `Subscribe` calls, the resulting
`player_chat` list is in ascending priority order, but the thirteen
equal-priority subscriptions are *not* in insertion order: `Subscribe`
re-sorts with `slices.SortFunc`, Go's unstable pattern-defeating quicksort,
whose partition pass scrambles equal elements once the list no longer fits
the 12-element insertion-sort fast path.  (Lists of at most 12 subscriptions
are sorted by plain insertion sort and do keep insertion order — the last
conjunct shows three equal-priority subscriptions staying put.) -/
theorem c3_subscribe_priority_but_unstable :
    ((c3Dispatcher.subscriptions "player_chat").map Subscription.priority
      = -1 :: List.replicate 13 0) ∧
    ((c3Dispatcher.subscriptions "player_chat").map Subscription.pluginID
      = ["p14", "p07", "p03", "p04", "p05", "p06", "p01",
         "p08", "p09", "p10", "p11", "p12", "p13", "p02"]) ∧
    (((c3Dispatcher.subscriptions "player_chat").map Subscription.pluginID).drop 1
      ≠ ["p01", "p02", "p03", "p04", "p05", "p06", "p07",
         "p08", "p09", "p10", "p11", "p12", "p13"]) ∧
    ((([("a", 0), ("b", 0), ("c", 0)] : List (String × Int)).foldl
        (fun d p => d.subscribe "player_chat" (c3Sub p.1 p.2))
        Dispatcher.new).subscriptions "player_chat").map Subscription.pluginID
      = ["a", "b", "c"] := by
  refine ⟨rfl, rfl, ?_, rfl⟩
  intro h
  have hdrop : ((c3Dispatcher.subscriptions "player_chat").map Subscription.pluginID).drop 1
      = ["p07", "p03", "p04", "p05", "p06", "p01",
         "p08", "p09", "p10", "p11", "p12", "p13", "p02"] := rfl
  rw [hdrop] at h
  exact absurd h (by decide)

end DragonflyWasm
